import Mathlib

/-!
A verification development for the `bustc-go` lexer.

The lexer of `src/bustc-go/lexer.go` and the token table of
`src/bustc-go/token.go` are embedded as pure, executable Lean functions.

* A code point (`rune`) is a natural number, so `List Nat` is a sequence of
  code points. The code points the lexer names are written as numbers:
  10 newline, 32 space, 34 double quote, 38 ampersand, 39 single quote,
  40 and 41 parentheses, 42 star, 43 plus, 44 comma, 45 minus, 47 slash,
  48 to 57 the digits, 58 colon, 60 less, 61 equals, 62 greater, 65 to 90 and
  97 to 122 the letters, 91 and 93 brackets, 92 backslash, 123 and 125 braces.
* The input of the lexer is the sequence of code points that `ReadRune`
  delivers, and the text of a token is the sequence that `WriteRune` wrote.
* The `bufio.Reader` is the list of code points that have not been read yet;
  its only read failure is the end of the list (`io.EOF`).
* A `strings.Builder` is the list of code points written so far; a function
  that writes to a builder takes it as an argument and returns it.
* A method with receiver `l *Lexer` takes the lexer state and returns the new
  state next to its results.
* A `for` loop is a function that is recursive on a fuel counter; every call
  site passes the number of unread code points plus one. The lemmas on each
  loop hold for every fuel above the number of unread code points, so no
  result depends on the fuel.
-/

namespace Bust

/-- The code points of a string literal, used to write inputs and lexemes. -/
def runes (s : String) : List Nat := s.toList.map Char.toNat

/-- The struct `Position` of lexer.go. -/
structure Position where
  Line : Nat
  Column : Nat
deriving DecidableEq, Repr

/-- The constants of type `TokenKind` of token.go, in their order. -/
inductive TokenKind where
  | InvalidToken
  | IdentifierToken
  | NumberToken
  | RuneToken
  | StringToken
  | OpenBraceToken
  | CloseBraceToken
  | OpenParenthesisToken
  | CloseParenthesisToken
  | OpenBracketToken
  | CloseBracketToken
  | FuncToken
  | PackageToken
  | TypeToken
  | StructToken
  | EnumToken
  | ReturnToken
  | IfToken
  | ElseToken
  | ForToken
  | BreakToken
  | ContinueToken
  | InitToken
  | AssignToken
  | ScopeToken
  | AddToken
  | SubToken
  | MulToken
  | DivToken
  | AndToken
  | EqualToken
  | LessToken
  | GreaterToken
  | BoolAndToken
  | BoolOrToken
  | CommaToken
  | LineCommentToken
deriving DecidableEq, Repr

open TokenKind

/-- The struct `Token` of token.go; `Text` is kept as its code points. -/
structure Token where
  Kind : TokenKind
  Text : List Nat
  Position : Position
deriving DecidableEq, Repr

/-- The values the field `err` of the lexer takes: `io.EOF` from the reader and
the three `fmt.Errorf` faults of lexer.go, each with its `%c` argument. -/
inductive LexError where
  | eof
  | unknownToken (r : Nat)
  | unexpectedCharacterInRune (r : Nat)
  | runeShouldEndWith (r : Nat)
deriving DecidableEq, Repr

/-- The struct `Lexer` of lexer.go; `err = none` is the nil error. -/
structure Lexer where
  reader : List Nat
  token : Token
  position : Position
  err : Option LexError
deriving DecidableEq, Repr

/-- The map `keywords` of token.go as an association list. -/
def keywordTable : List (List Nat × TokenKind) :=
  [ (runes "type", TypeToken),
    (runes "func", FuncToken),
    (runes "package", PackageToken),
    (runes "struct", StructToken),
    (runes "enum", EnumToken),
    (runes "return", ReturnToken),
    (runes "if", IfToken),
    (runes "else", ElseToken),
    (runes "for", ForToken),
    (runes "break", BreakToken),
    (runes "continue", ContinueToken) ]

/-- The lookup `keywords[text]`: `some kind` when the key is present. -/
def keywords (text : List Nat) : Option TokenKind :=
  keywordTable.lookup text

/-- The function `isNextLine` of lexer.go. -/
def isNextLine (r : Nat) : Bool := r == 10

/-- The function `isDigit` of lexer.go: `r >= '0' && r <= '9'`. -/
def isDigit (r : Nat) : Bool := decide (48 ≤ r) && decide (r ≤ 57)

/-- The function `isLetter` of lexer.go:
`(r >= 'a' && r <= 'z') || (r >= 'A' && r <= 'Z')`. -/
def isLetter (r : Nat) : Bool :=
  (decide (97 ≤ r) && decide (r ≤ 122)) || (decide (65 ≤ r) && decide (r ≤ 90))

/-- The library function `unicode.IsSpace` of Go: in Latin-1 the code points
tab, line feed, vertical tab, form feed, carriage return, space, U+0085 and
U+00A0; above Latin-1 the code points of the Unicode property White_Space. -/
def isSpace (r : Nat) : Bool :=
  if r ≤ 0xFF then
    r == 9 || r == 10 || r == 11 || r == 12 || r == 13 || r == 32 || r == 0x85 || r == 0xA0
  else
    r == 0x1680 || (decide (0x2000 ≤ r) && decide (r ≤ 0x200A)) || r == 0x2028 || r == 0x2029
      || r == 0x202F || r == 0x205F || r == 0x3000

/-- The function `NewLexer` of lexer.go: every field but the reader is zero. -/
def NewLexer (reader : List Nat) : Lexer :=
  { reader := reader
    token := { Kind := InvalidToken, Text := [], Position := { Line := 0, Column := 0 } }
    position := { Line := 0, Column := 0 }
    err := none }

/-- The method `readRune` of lexer.go. -/
def readRune (l : Lexer) : Nat × Bool × Lexer :=
  match l.reader with
  | [] => (0, false, { l with err := some LexError.eof })
  | r :: rest =>
    let l := { l with reader := rest }
    let l := { l with position := { l.position with Column := l.position.Column + 1 } }
    let l := if isNextLine r then
        { l with position := { Line := l.position.Line + 1, Column := 0 } }
      else l
    (r, true, l)

/-- The method `tryReadRune` of lexer.go. The returned function is the closure
`cancel`: `UnreadRune` puts the code point just read back in front of the
reader and the position is reset to the saved `p`. Where the source returns a
nil closure (a failed read) the identity stands in; it is never called. -/
def tryReadRune (l : Lexer) : Nat × (Lexer → Lexer) × Bool × Lexer :=
  let p := l.position
  let (r, ok, l) := readRune l
  if !ok then (0, fun s => s, false, l)
  else
    let cancel := fun (s : Lexer) => { s with reader := r :: s.reader, position := p }
    (r, cancel, true, l)

/-- The loop `for unicode.IsSpace(r) && ok` of `Next` (lines 28 to 31). -/
def spaceLoop : Nat → Nat → Bool → Lexer → Nat × Bool × Lexer
  | 0, r, ok, l => (r, ok, l)
  | fuel + 1, r, ok, l =>
    if isSpace r && ok then
      let l := { l with token.Position := l.position }
      let (r, ok, l) := readRune l
      spaceLoop fuel r ok l
    else (r, ok, l)

/-- The loop `for (isLetter(r) || isDigit(r)) && ok` of `nextIdentifierToken`. -/
def identifierLoop : Nat → Nat → (Lexer → Lexer) → Bool → List Nat → Lexer →
    Nat × (Lexer → Lexer) × Bool × List Nat × Lexer
  | 0, r, unread, ok, b, l => (r, unread, ok, b, l)
  | fuel + 1, r, unread, ok, b, l =>
    if (isLetter r || isDigit r) && ok then
      let b := b ++ [r]
      let (r, unread, ok, l) := tryReadRune l
      identifierLoop fuel r unread ok b l
    else (r, unread, ok, b, l)

/-- The method `nextIdentifierToken` of lexer.go. -/
def nextIdentifierToken (b : List Nat) (l : Lexer) : Bool × Lexer :=
  let (r, unread, ok, l) := tryReadRune l
  let (_, unread, ok, b, l) := identifierLoop (l.reader.length + 1) r unread ok b l
  if !ok && l.err != some LexError.eof then (false, l)
  else
    let l := if !ok then l else unread l
    let l := { l with token.Text := b }
    match keywords l.token.Text with
    | some kind => (true, { l with token.Kind := kind })
    | none => (true, { l with token.Kind := IdentifierToken })

/-- The loop `for isDigit(r) && ok` of `nextNumberToken`. -/
def numberLoop : Nat → Nat → (Lexer → Lexer) → Bool → List Nat → Lexer →
    Nat × (Lexer → Lexer) × Bool × List Nat × Lexer
  | 0, r, unread, ok, b, l => (r, unread, ok, b, l)
  | fuel + 1, r, unread, ok, b, l =>
    if isDigit r && ok then
      let b := b ++ [r]
      let (r, unread, ok, l) := tryReadRune l
      numberLoop fuel r unread ok b l
    else (r, unread, ok, b, l)

/-- The method `nextNumberToken` of lexer.go. -/
def nextNumberToken (b : List Nat) (l : Lexer) : Bool × Lexer :=
  let (r, unread, ok, l) := tryReadRune l
  let (_, unread, ok, b, l) := numberLoop (l.reader.length + 1) r unread ok b l
  if !ok && l.err != some LexError.eof then (false, l)
  else
    let l := if !ok then l else unread l
    let l := { l with token.Kind := NumberToken }
    let l := { l with token.Text := b }
    (true, l)

/-- The method `readEscapedRune` of lexer.go; the results are the code point,
`escaped`, `ok`, the builder and the lexer. -/
def readEscapedRune (b : List Nat) (l : Lexer) : Nat × Bool × Bool × List Nat × Lexer :=
  let (r, ok, l) := readRune l
  if !ok then (r, false, ok, b, l)
  else if r = 92 then
    let b := b ++ [r]
    let (r, ok, l) := readRune l
    (r, true, ok, b, l)
  else (r, false, ok, b, l)

/-- The method `nextRuneToken` of lexer.go. -/
def nextRuneToken (b : List Nat) (l : Lexer) : Bool × Lexer :=
  let (r, escaped, ok, b, l) := readEscapedRune b l
  if !ok then (false, l)
  else if !escaped && r = 39 then
    (false, { l with err := some (LexError.unexpectedCharacterInRune r) })
  else
    let b := b ++ [r]
    let (r, ok, l) := readRune l
    if !ok then (false, l)
    else if r ≠ 39 then
      (false, { l with err := some (LexError.runeShouldEndWith 39) })
    else
      let b := b ++ [r]
      let l := { l with token.Kind := RuneToken }
      let l := { l with token.Text := b }
      (true, l)

/-- The loop `for (escaped || r != '"') && ok` of `nextStringToken`. -/
def stringLoop : Nat → Nat → Bool → Bool → List Nat → Lexer →
    Nat × Bool × Bool × List Nat × Lexer
  | 0, r, escaped, ok, b, l => (r, escaped, ok, b, l)
  | fuel + 1, r, escaped, ok, b, l =>
    if (escaped || r != 34) && ok then
      let b := b ++ [r]
      let (r, escaped, ok, b, l) := readEscapedRune b l
      stringLoop fuel r escaped ok b l
    else (r, escaped, ok, b, l)

/-- The method `nextStringToken` of lexer.go. -/
def nextStringToken (b : List Nat) (l : Lexer) : Bool × Lexer :=
  let (r, escaped, ok, b, l) := readEscapedRune b l
  let (r, _, ok, b, l) := stringLoop (l.reader.length + 1) r escaped ok b l
  if !ok then (false, l)
  else
    let b := b ++ [r]
    let l := { l with token.Kind := StringToken }
    let l := { l with token.Text := b }
    (true, l)

/-- The loop `for !isNextLine(r) && ok` of `nextLineCommentToken`. -/
def lineCommentLoop : Nat → Nat → Bool → List Nat → Lexer → Nat × Bool × List Nat × Lexer
  | 0, r, ok, b, l => (r, ok, b, l)
  | fuel + 1, r, ok, b, l =>
    if !isNextLine r && ok then
      let b := b ++ [r]
      let (r, ok, l) := readRune l
      lineCommentLoop fuel r ok b l
    else (r, ok, b, l)

/-- The method `nextLineCommentToken` of lexer.go. -/
def nextLineCommentToken (b : List Nat) (l : Lexer) : Bool × Lexer :=
  let (r, ok, l) := readRune l
  let (_, _, b, l) := lineCommentLoop (l.reader.length + 1) r ok b l
  let l := { l with token.Kind := LineCommentToken }
  let l := { l with token.Text := b }
  (true, l)

/-- The end of `Next` after the switch (lines 135 and 136):
`l.token.Text = b.String(); return true`. -/
def finishToken (b : List Nat) (l : Lexer) : Bool × Lexer :=
  (true, { l with token.Text := b })

/-- The switch of `Next` (lines 38 to 136) on the first code point `r` of the
token, which has been read already. -/
def NextSwitch (r : Nat) (l : Lexer) : Bool × Lexer :=
  let b : List Nat := [r]
  if r = 39 then nextRuneToken b l
  else if r = 34 then nextStringToken b l
  else if r = 123 then finishToken b { l with token.Kind := OpenBraceToken }
  else if r = 125 then finishToken b { l with token.Kind := CloseBraceToken }
  else if r = 40 then finishToken b { l with token.Kind := OpenParenthesisToken }
  else if r = 41 then finishToken b { l with token.Kind := CloseParenthesisToken }
  else if r = 91 then finishToken b { l with token.Kind := OpenBracketToken }
  else if r = 93 then finishToken b { l with token.Kind := CloseBracketToken }
  else if r = 44 then finishToken b { l with token.Kind := CommaToken }
  else if r = 43 then finishToken b { l with token.Kind := AddToken }
  else if r = 45 then finishToken b { l with token.Kind := SubToken }
  else if r = 42 then finishToken b { l with token.Kind := MulToken }
  else if r = 60 then finishToken b { l with token.Kind := LessToken }
  else if r = 62 then finishToken b { l with token.Kind := GreaterToken }
  else if r = 47 then
    let (r2, unread, ok, l) := tryReadRune l
    if ok && r2 = 47 then
      let b := b ++ [r2]
      nextLineCommentToken b l
    else
      let l := if ok then unread l else l
      finishToken b { l with token.Kind := DivToken }
  else if r = 58 then
    let (r2, ok, l) := readRune l
    if ok && r2 = 61 then
      let b := b ++ [r2]
      let l := { l with token.Kind := InitToken }
      let l := { l with token.Text := b }
      (true, l)
    else if ok && r2 = 58 then
      let b := b ++ [r2]
      let l := { l with token.Kind := ScopeToken }
      let l := { l with token.Text := b }
      (true, l)
    else
      let l := { l with err := some (LexError.unknownToken r) }
      let l := { l with token.Kind := InvalidToken }
      let l := { l with token.Text := b }
      (false, l)
  else if r = 38 then
    let (r2, unread, ok, l) := tryReadRune l
    if ok then
      if r2 = 38 then
        let b := b ++ [r2]
        finishToken b { l with token.Kind := BoolAndToken }
      else
        let l := unread l
        finishToken b { l with token.Kind := AndToken }
    else finishToken b { l with token.Kind := AndToken }
  else if r = 61 then
    let (r2, unread, ok, l) := tryReadRune l
    if ok then
      if r2 = 61 then
        let b := b ++ [r2]
        finishToken b { l with token.Kind := EqualToken }
      else
        let l := unread l
        finishToken b { l with token.Kind := AssignToken }
    else finishToken b { l with token.Kind := AssignToken }
  else if isDigit r then nextNumberToken b l
  else if isLetter r then nextIdentifierToken b l
  else
    let l := { l with err := some (LexError.unknownToken r) }
    let l := { l with token.Kind := InvalidToken }
    let l := { l with token.Text := b }
    (false, l)

/-- The method `Next` of lexer.go: lines 26 to 37 here, the switch in
`NextSwitch`. -/
def Next (l : Lexer) : Bool × Lexer :=
  let l := { l with token.Position := l.position }
  let (r, ok, l) := readRune l
  let (r, ok, l) := spaceLoop (l.reader.length + 1) r ok l
  if !ok then
    let l := if l.err = some LexError.eof then { l with err := none } else l
    (false, l)
  else NextSwitch r l

/-- The method `Err` of lexer.go. -/
def Err (l : Lexer) : Option LexError := l.err

/-- The loop `for r.Next()` of main.go, collecting the tokens it prints;
`none` when the fuel runs out before `Next` returns false. -/
def scan : Nat → Lexer → Option (List Token × Lexer)
  | 0, _ => none
  | fuel + 1, l =>
    match Next l with
    | (false, l) => some ([], l)
    | (true, l) =>
      match scan fuel l with
      | some (ts, lf) => some (l.token :: ts, lf)
      | none => none

/-! ## Specification vocabulary -/

/-- The position after one more code point is read: the effect of `readRune`
on `l.position` (column plus one, then line plus one and column zero for a
newline). -/
def step (p : Position) (r : Nat) : Position :=
  if isNextLine r then { Line := p.Line + 1, Column := 0 }
  else { Line := p.Line, Column := p.Column + 1 }

/-- The position after the code points `cs` are read in order from `p`. -/
def advance (p : Position) (cs : List Nat) : Position := cs.foldl step p

/-- Every code point of `ws` is whitespace for `unicode.IsSpace`. -/
def allSpace (ws : List Nat) : Prop := ∀ c ∈ ws, isSpace c = true

instance (ws : List Nat) : Decidable (allSpace ws) := by
  unfold allSpace; infer_instance

/-- The closure `cancel` that `tryReadRune` returns after reading `r` at
position `p`. -/
def cancelRead (r : Nat) (p : Position) : Lexer → Lexer :=
  fun s => { s with reader := r :: s.reader, position := p }

/-- The loop condition of `nextIdentifierToken` on a code point. -/
def isAlnum (r : Nat) : Bool := isLetter r || isDigit r

/-- The kind `nextIdentifierToken` gives to the lexeme `text`. -/
def identifierKind (text : List Nat) : TokenKind :=
  match keywords text with
  | some kind => kind
  | none => IdentifierToken

/-- The inputs after the opening quote on which `nextRuneToken` succeeds. -/
def runeBodyOk (rs : List Nat) : Bool :=
  match rs with
  | c :: d :: q :: _ => if c = 92 then q == 39 else (c != 39 && d == 39)
  | c :: d :: [] => c != 92 && c != 39 && d == 39
  | _ => false

/-- A unit of a string body that does not close the string: one code point
that is neither a backslash nor a double quote, or a backslash together with
the code point after it. -/
def isBodyUnit (u : List Nat) : Bool :=
  match u with
  | [c] => c != 92 && c != 34
  | [c, _] => c == 92
  | _ => false

/-- The twelve code points that are a token on their own whatever follows,
with their kinds: the cases of the switch that only set `l.token.Kind`. -/
def punctTable : List (Nat × TokenKind) :=
  [ (123, OpenBraceToken), (125, CloseBraceToken), (40, OpenParenthesisToken),
    (41, CloseParenthesisToken), (91, OpenBracketToken), (93, CloseBracketToken),
    (44, CommaToken), (43, AddToken), (45, SubToken), (42, MulToken), (60, LessToken),
    (62, GreaterToken) ]

/-- The kind of `c` in `punctTable`, if it is there. -/
def punctKind (c : Nat) : Option TokenKind := punctTable.lookup c

/-- The number of newline code points in `pre`. -/
def lineOf (pre : List Nat) : Nat := pre.count 10

/-- The number of code points of `pre` after its last newline, or in all of
`pre` when it has none. -/
def columnOf (pre : List Nat) : Nat := (pre.reverse.takeWhile (fun c => c != 10)).length

/-- The lexer state after `k` successive calls of `Next`, whatever they
returned. -/
def nextCalls : Nat → Lexer → Lexer
  | 0, l => l
  | k + 1, l => (Next (nextCalls k l)).2

/-- The sequence `g1 ++ t1 ++ g2 ++ t2 ++ ...` of gaps and token texts. -/
def weave : List (List Nat) → List (List Nat) → List Nat
  | g :: gs, t :: ts => g ++ t ++ weave gs ts
  | _, _ => []

/-- A gap between two tokens as it is reinserted: nothing for an empty gap,
one space for a whitespace run. -/
def squeeze (g : List Nat) : List Nat := if g = [] then [] else [32]

/-- The token texts in order, with one space reinserted between two tokens
that were separated by whitespace; `gaps` are the whitespace runs in front of
each token, so the first of them is not between two tokens. -/
def rejoin (gaps texts : List (List Nat)) : List Nat :=
  weave ([] :: gaps.tail.map squeeze) texts

/-- Single-space normalization with its state: `started` says that a code
point was output, `pend` that whitespace was read since. Every whitespace run
between two other code points becomes one space; whitespace at the start and
at the end is dropped. -/
def collapseAux (started pend : Bool) : List Nat → List Nat
  | [] => []
  | c :: cs =>
    if isSpace c then collapseAux started started cs
    else if pend then 32 :: c :: collapseAux true false cs
    else c :: collapseAux true false cs

/-- The canonical single-space normalization of whitespace runs: every
whitespace run between two other code points becomes one space, and the
whitespace at the start and at the end of the input is dropped. -/
def normalizeSpace (inp : List Nat) : List Nat := collapseAux false false inp

/-- The eleven keyword spellings, as the specification lists them. -/
def keywordSpellings : List (List Nat) :=
  [runes "type", runes "func", runes "package", runes "struct", runes "enum",
    runes "return", runes "if", runes "else", runes "for", runes "break", runes "continue"]

/-- The reserved kind of each keyword spelling, as the specification pairs
them. -/
def keywordPairs : List (List Nat × TokenKind) :=
  [(runes "type", TypeToken), (runes "func", FuncToken), (runes "package", PackageToken),
    (runes "struct", StructToken), (runes "enum", EnumToken), (runes "return", ReturnToken),
    (runes "if", IfToken), (runes "else", ElseToken), (runes "for", ForToken),
    (runes "break", BreakToken), (runes "continue", ContinueToken)]

/-- A fresh lexer on `rest` whose position starts at column `col` of line 0. -/
def offsetLexer (rest : List Nat) (col : Nat) : Lexer :=
  { NewLexer rest with position := { Line := 0, Column := col } }

/-- The kind of the one-character token that `&`, `=` and `/` give. -/
def oneCharKind (c : Nat) : TokenKind :=
  if c = 38 then AndToken else if c = 61 then AssignToken else DivToken

/-- The kind of the token that `&&`, `==` and `//` give. -/
def twoCharKind (c : Nat) : TokenKind :=
  if c = 38 then BoolAndToken else if c = 61 then EqualToken else LineCommentToken

/-- Strictly before, in the lexicographic order on (line, column). -/
def lexLt (a b : Position) : Prop :=
  a.Line < b.Line ∨ (a.Line = b.Line ∧ a.Column < b.Column)

/-- Before or equal, in the lexicographic order on (line, column). -/
def lexLe (a b : Position) : Prop :=
  a.Line < b.Line ∨ (a.Line = b.Line ∧ a.Column ≤ b.Column)

/-- The spelling of a keyword kind, as the specification pairs them. -/
def spellingOf : TokenKind → Option (List Nat)
  | TypeToken => some (runes "type")
  | FuncToken => some (runes "func")
  | PackageToken => some (runes "package")
  | StructToken => some (runes "struct")
  | EnumToken => some (runes "enum")
  | ReturnToken => some (runes "return")
  | IfToken => some (runes "if")
  | ElseToken => some (runes "else")
  | ForToken => some (runes "for")
  | BreakToken => some (runes "break")
  | ContinueToken => some (runes "continue")
  | _ => none

/-- The symbol of a punctuation or operator kind, as the specification lists
them: braces, parentheses, brackets, comma, `+ - * / < > & && = == := ::`. -/
def symbolOf : TokenKind → Option (List Nat)
  | OpenBraceToken => some [123]
  | CloseBraceToken => some [125]
  | OpenParenthesisToken => some [40]
  | CloseParenthesisToken => some [41]
  | OpenBracketToken => some [91]
  | CloseBracketToken => some [93]
  | CommaToken => some [44]
  | AddToken => some [43]
  | SubToken => some [45]
  | MulToken => some [42]
  | DivToken => some [47]
  | LessToken => some [60]
  | GreaterToken => some [62]
  | AndToken => some [38]
  | BoolAndToken => some [38, 38]
  | AssignToken => some [61]
  | EqualToken => some [61, 61]
  | InitToken => some [58, 61]
  | ScopeToken => some [58, 58]
  | _ => none

/-- The text `text` is not empty and has the shape of the kind `k`: digits for
a Number; a letter followed by letters and digits, not a keyword spelling, for
an Identifier; the spelling for a keyword kind; the symbol for a punctuation
or operator kind; two double quotes around a String; two single quotes around
the 1 or 2 code points of a Rune; `//` and no newline for a LineComment. No
text has the shape of the kinds Invalid and BoolOr. -/
def shapeOk (k : TokenKind) (text : List Nat) : Prop :=
  text ≠ [] ∧
  match k with
  | NumberToken => ∀ x ∈ text, isDigit x = true
  | IdentifierToken =>
    (∃ c tl, text = c :: tl ∧ isLetter c = true ∧
      ∀ x ∈ tl, isLetter x = true ∨ isDigit x = true) ∧ text ∉ keywordSpellings
  | StringToken => 2 ≤ text.length ∧ text.head? = some 34 ∧ text.getLast? = some 34
  | RuneToken =>
    (text.length = 3 ∨ text.length = 4) ∧ text.head? = some 39 ∧ text.getLast? = some 39
  | LineCommentToken => ∃ body, text = 47 :: 47 :: body ∧ 10 ∉ body
  | InvalidToken => False
  | BoolOrToken => False
  | other => spellingOf other = some text ∨ symbolOf other = some text

/-- The token that starts with `c` and goes on in `rest` is scanned up to the
end of the input with one more read that fails: a run of letters and digits
after a letter, or of digits after a digit, that is all of `rest`; `//` and a
body without a newline; or one of `/`, `&`, `=` with nothing after it. -/
def endHit (c : Nat) (rest : List Nat) : Bool :=
  (isLetter c && rest.all isAlnum) || (isDigit c && rest.all isDigit) ||
    (c == 47 && (match rest with
      | [] => true
      | d :: body => d == 47 && body.all (fun x => x != 10))) ||
    ((c == 38 || c == 61) && rest.isEmpty)

/-- The token that the next call of `Next` scans in the unread input `rs`, if
there is one, is scanned up to the end of the input (`endHit`). -/
def hitsEnd (rs : List Nat) : Bool :=
  match rs.dropWhile isSpace with
  | [] => false
  | c :: rest => endHit c rest

/-! ## Reads -/

theorem advance_nil (p : Position) : advance p [] = p := rfl

theorem advance_cons (p : Position) (c : Nat) (cs : List Nat) :
    advance p (c :: cs) = advance (step p c) cs := rfl

theorem advance_append (p : Position) (xs ys : List Nat) :
    advance p (xs ++ ys) = advance (advance p xs) ys := by
  simp [advance, List.foldl_append]

theorem readRune_nil (t : Token) (p : Position) (e : Option LexError) :
    readRune ⟨[], t, p, e⟩ = (0, false, ⟨[], t, p, some LexError.eof⟩) := rfl

theorem readRune_cons (r : Nat) (rs : List Nat) (t : Token) (p : Position)
    (e : Option LexError) :
    readRune ⟨r :: rs, t, p, e⟩ = (r, true, ⟨rs, t, step p r, e⟩) := by
  simp only [readRune, step]
  split <;> rfl

theorem tryReadRune_nil (t : Token) (p : Position) (e : Option LexError) :
    tryReadRune ⟨[], t, p, e⟩ = (0, fun s => s, false, ⟨[], t, p, some LexError.eof⟩) := rfl

theorem tryReadRune_cons (r : Nat) (rs : List Nat) (t : Token) (p : Position)
    (e : Option LexError) :
    tryReadRune ⟨r :: rs, t, p, e⟩ = (r, cancelRead r p, true, ⟨rs, t, step p r, e⟩) := by
  simp only [tryReadRune, readRune_cons]
  rfl

/-! ## The whitespace loop -/

theorem spaceLoop_stop (fuel : Nat) (r : Nat) (l : Lexer) (h : isSpace r = false) :
    spaceLoop fuel r true l = (r, true, l) := by
  cases fuel <;> simp [spaceLoop, h]

theorem spaceLoop_failed (fuel : Nat) (r : Nat) (l : Lexer) :
    spaceLoop fuel r false l = (r, false, l) := by
  cases fuel <;> simp [spaceLoop]

theorem spaceLoop_token (ws : List Nat) :
    ∀ (fuel : Nat) (r c : Nat) (rest : List Nat) (t : Token) (p : Position)
      (e : Option LexError), allSpace (r :: ws) → isSpace c = false → ws.length < fuel →
      spaceLoop fuel r true ⟨ws ++ c :: rest, t, p, e⟩
        = (c, true, ⟨rest, { t with Position := advance p ws }, advance p (ws ++ [c]), e⟩) := by
  induction ws with
  | nil =>
    intro fuel r c rest t p e hs hc hf
    obtain ⟨n, rfl⟩ : ∃ n, fuel = n + 1 := ⟨fuel - 1, by omega⟩
    have hr : isSpace r = true := hs r (by simp)
    simp [spaceLoop, hr, readRune_cons, spaceLoop_stop, hc, advance, step]
  | cons w ws ih =>
    intro fuel r c rest t p e hs hc hf
    obtain ⟨n, rfl⟩ : ∃ n, fuel = n + 1 := ⟨fuel - 1, by simp at hf; omega⟩
    have hr : isSpace r = true := hs r (by simp)
    have hs2 : allSpace (w :: ws) := fun x hx => hs x (List.mem_cons_of_mem _ hx)
    have hf2 : ws.length < n := by simp at hf; omega
    simp only [spaceLoop, hr, Bool.and_self, if_true, List.cons_append, readRune_cons]
    rw [ih n w c rest _ _ e hs2 hc hf2]
    simp [advance_cons]

theorem spaceLoop_eof (ws : List Nat) :
    ∀ (fuel : Nat) (r : Nat) (t : Token) (p : Position) (e : Option LexError),
      allSpace (r :: ws) → ws.length < fuel →
      spaceLoop fuel r true ⟨ws, t, p, e⟩
        = (0, false, ⟨[], { t with Position := advance p ws }, advance p ws,
            some LexError.eof⟩) := by
  induction ws with
  | nil =>
    intro fuel r t p e hs hf
    obtain ⟨n, rfl⟩ : ∃ n, fuel = n + 1 := ⟨fuel - 1, by omega⟩
    have hr : isSpace r = true := hs r (by simp)
    simp [spaceLoop, hr, readRune_nil, spaceLoop_failed, advance]
  | cons w ws ih =>
    intro fuel r t p e hs hf
    obtain ⟨n, rfl⟩ : ∃ n, fuel = n + 1 := ⟨fuel - 1, by simp at hf; omega⟩
    have hr : isSpace r = true := hs r (by simp)
    have hs2 : allSpace (w :: ws) := fun x hx => hs x (List.mem_cons_of_mem _ hx)
    have hf2 : ws.length < n := by simp at hf; omega
    simp only [spaceLoop, hr, Bool.and_self, if_true, readRune_cons]
    rw [ih n w _ _ e hs2 hf2]
    simp [advance_cons]

/-- The first lines of `Next` on an input that has a token: the whitespace
`ws` is skipped, the token position is the position of `c`, and the switch
runs on `c` with `c` read. -/
theorem Next_token (ws : List Nat) (c : Nat) (rest : List Nat) (t : Token)
    (p : Position) (e : Option LexError) (hws : allSpace ws) (hc : isSpace c = false) :
    Next ⟨ws ++ c :: rest, t, p, e⟩
      = NextSwitch c ⟨rest, { t with Position := advance p ws }, advance p (ws ++ [c]), e⟩ := by
  cases ws with
  | nil =>
    simp [Next, readRune_cons, spaceLoop_stop, hc, advance]
  | cons w ws =>
    have h := spaceLoop_token ws (ws ++ c :: rest).length.succ w c rest
      { t with Position := p } (step p w) e hws hc (by simp; omega)
    simp only [Next, List.cons_append, readRune_cons]
    simp only [Nat.succ_eq_add_one] at h
    rw [h]
    simp [advance_cons]

/-- The first lines of `Next` on an input of whitespace only: a clean end. -/
theorem Next_eof (ws : List Nat) (t : Token) (p : Position) (e : Option LexError)
    (hws : allSpace ws) :
    Next ⟨ws, t, p, e⟩
      = (false, ⟨[], { t with Position := advance p ws }, advance p ws, none⟩) := by
  cases ws with
  | nil =>
    simp [Next, readRune_nil, spaceLoop_failed, advance]
  | cons w ws =>
    have h := spaceLoop_eof ws ws.length.succ w { t with Position := p } (step p w) e hws
      (by simp)
    simp only [Next, readRune_cons]
    simp only [Nat.succ_eq_add_one] at h
    rw [h]
    simp [advance_cons]

/-! ## Identifiers and numbers -/

theorem identifierLoop_stop (fuel : Nat) (r : Nat) (u : Lexer → Lexer) (b : List Nat)
    (l : Lexer) (h : isAlnum r = false) :
    identifierLoop fuel r u true b l = (r, u, true, b, l) := by
  unfold isAlnum at h
  cases fuel <;> simp [identifierLoop, h]

theorem identifierLoop_failed (fuel : Nat) (r : Nat) (u : Lexer → Lexer) (b : List Nat)
    (l : Lexer) : identifierLoop fuel r u false b l = (r, u, false, b, l) := by
  cases fuel <;> simp [identifierLoop]

theorem identifierLoop_run (run : List Nat) :
    ∀ (fuel : Nat) (r c : Nat) (u : Lexer → Lexer) (b rest : List Nat) (t : Token)
      (p : Position) (e : Option LexError),
      (∀ x ∈ r :: run, isAlnum x = true) → isAlnum c = false → run.length < fuel →
      identifierLoop fuel r u true b ⟨run ++ c :: rest, t, p, e⟩
        = (c, cancelRead c (advance p run), true, b ++ r :: run,
            ⟨rest, t, advance p (run ++ [c]), e⟩) := by
  induction run with
  | nil =>
    intro fuel r c u b rest t p e hs hc hf
    obtain ⟨n, rfl⟩ : ∃ n, fuel = n + 1 := ⟨fuel - 1, by omega⟩
    have hr : (isLetter r || isDigit r) = true := hs r (by simp)
    simp [identifierLoop, hr, tryReadRune_cons, identifierLoop_stop, hc, advance]
  | cons w run ih =>
    intro fuel r c u b rest t p e hs hc hf
    obtain ⟨n, rfl⟩ : ∃ n, fuel = n + 1 := ⟨fuel - 1, by simp at hf; omega⟩
    have hr : (isLetter r || isDigit r) = true := hs r (by simp)
    have hs2 : ∀ x ∈ w :: run, isAlnum x = true :=
      fun x hx => hs x (List.mem_cons_of_mem _ hx)
    have hf2 : run.length < n := by simp at hf; omega
    simp only [identifierLoop, hr, Bool.and_self, if_true, List.cons_append, tryReadRune_cons]
    rw [ih n w c _ _ rest t _ e hs2 hc hf2]
    simp [advance_cons]

theorem identifierLoop_eof (run : List Nat) :
    ∀ (fuel : Nat) (r : Nat) (u : Lexer → Lexer) (b : List Nat) (t : Token)
      (p : Position) (e : Option LexError),
      (∀ x ∈ r :: run, isAlnum x = true) → run.length < fuel →
      identifierLoop fuel r u true b ⟨run, t, p, e⟩
        = (0, fun s => s, false, b ++ r :: run, ⟨[], t, advance p run, some LexError.eof⟩) := by
  induction run with
  | nil =>
    intro fuel r u b t p e hs hf
    obtain ⟨n, rfl⟩ : ∃ n, fuel = n + 1 := ⟨fuel - 1, by omega⟩
    have hr : (isLetter r || isDigit r) = true := hs r (by simp)
    simp [identifierLoop, hr, tryReadRune_nil, identifierLoop_failed, advance]
  | cons w run ih =>
    intro fuel r u b t p e hs hf
    obtain ⟨n, rfl⟩ : ∃ n, fuel = n + 1 := ⟨fuel - 1, by simp at hf; omega⟩
    have hr : (isLetter r || isDigit r) = true := hs r (by simp)
    have hs2 : ∀ x ∈ w :: run, isAlnum x = true :=
      fun x hx => hs x (List.mem_cons_of_mem _ hx)
    have hf2 : run.length < n := by simp at hf; omega
    simp only [identifierLoop, hr, Bool.and_self, if_true, tryReadRune_cons]
    rw [ih n w (cancelRead w p) (b ++ [r]) t (step p w) e hs2 hf2]
    simp [advance_cons]

/-- The method `nextIdentifierToken` on a run of letters and digits that is
followed by another code point `c`: the run is the lexeme and `c` is unread. -/
theorem nextIdentifierToken_run (run : List Nat) (c : Nat) (b rest : List Nat)
    (t : Token) (p : Position) (e : Option LexError)
    (hrun : ∀ x ∈ run, isAlnum x = true) (hc : isAlnum c = false) :
    nextIdentifierToken b ⟨run ++ c :: rest, t, p, e⟩
      = (true, ⟨c :: rest, { t with Kind := identifierKind (b ++ run), Text := b ++ run },
          advance p run, e⟩) := by
  cases run with
  | nil =>
    simp only [nextIdentifierToken, List.nil_append, tryReadRune_cons,
      identifierLoop_stop _ _ _ _ _ hc]
    simp only [identifierKind, List.append_nil]
    cases hk : keywords b <;> simp [cancelRead, advance, hk]
  | cons w run =>
    have h := identifierLoop_run run (run ++ c :: rest).length.succ w c (cancelRead w p) b rest
      t (step p w) e hrun hc (by simp; omega)
    simp only [Nat.succ_eq_add_one] at h
    simp only [nextIdentifierToken, List.cons_append, tryReadRune_cons]
    rw [h]
    simp only [identifierKind]
    cases hk : keywords (b ++ w :: run) <;>
      simp [cancelRead, advance_cons, advance_append, hk]

/-- The method `nextIdentifierToken` on a run of letters and digits that ends
the input: the run is the lexeme and `err` is left at `io.EOF`. -/
theorem nextIdentifierToken_eof (run : List Nat) (b : List Nat)
    (t : Token) (p : Position) (e : Option LexError)
    (hrun : ∀ x ∈ run, isAlnum x = true) :
    nextIdentifierToken b ⟨run, t, p, e⟩
      = (true, ⟨[], { t with Kind := identifierKind (b ++ run), Text := b ++ run },
          advance p run, some LexError.eof⟩) := by
  cases run with
  | nil =>
    simp only [nextIdentifierToken, tryReadRune_nil, identifierLoop_failed]
    simp only [identifierKind, List.append_nil]
    cases hk : keywords b <;> simp [advance, hk]
  | cons w run =>
    have h := identifierLoop_eof run run.length.succ w (cancelRead w p) b
      t (step p w) e hrun (by simp)
    simp only [Nat.succ_eq_add_one] at h
    simp only [nextIdentifierToken, tryReadRune_cons]
    rw [h]
    simp only [identifierKind]
    cases hk : keywords (b ++ w :: run) <;> simp [advance_cons, hk]

theorem numberLoop_stop (fuel : Nat) (r : Nat) (u : Lexer → Lexer) (b : List Nat)
    (l : Lexer) (h : isDigit r = false) :
    numberLoop fuel r u true b l = (r, u, true, b, l) := by
  cases fuel <;> simp [numberLoop, h]

theorem numberLoop_failed (fuel : Nat) (r : Nat) (u : Lexer → Lexer) (b : List Nat)
    (l : Lexer) : numberLoop fuel r u false b l = (r, u, false, b, l) := by
  cases fuel <;> simp [numberLoop]

theorem numberLoop_run (run : List Nat) :
    ∀ (fuel : Nat) (r c : Nat) (u : Lexer → Lexer) (b rest : List Nat) (t : Token)
      (p : Position) (e : Option LexError),
      (∀ x ∈ r :: run, isDigit x = true) → isDigit c = false → run.length < fuel →
      numberLoop fuel r u true b ⟨run ++ c :: rest, t, p, e⟩
        = (c, cancelRead c (advance p run), true, b ++ r :: run,
            ⟨rest, t, advance p (run ++ [c]), e⟩) := by
  induction run with
  | nil =>
    intro fuel r c u b rest t p e hs hc hf
    obtain ⟨n, rfl⟩ : ∃ n, fuel = n + 1 := ⟨fuel - 1, by omega⟩
    have hr : isDigit r = true := hs r (by simp)
    simp [numberLoop, hr, tryReadRune_cons, numberLoop_stop, hc, advance]
  | cons w run ih =>
    intro fuel r c u b rest t p e hs hc hf
    obtain ⟨n, rfl⟩ : ∃ n, fuel = n + 1 := ⟨fuel - 1, by simp at hf; omega⟩
    have hr : isDigit r = true := hs r (by simp)
    have hs2 : ∀ x ∈ w :: run, isDigit x = true :=
      fun x hx => hs x (List.mem_cons_of_mem _ hx)
    have hf2 : run.length < n := by simp at hf; omega
    simp only [numberLoop, hr, Bool.and_self, if_true, List.cons_append, tryReadRune_cons]
    rw [ih n w c _ _ rest t _ e hs2 hc hf2]
    simp [advance_cons]

theorem numberLoop_eof (run : List Nat) :
    ∀ (fuel : Nat) (r : Nat) (u : Lexer → Lexer) (b : List Nat) (t : Token)
      (p : Position) (e : Option LexError),
      (∀ x ∈ r :: run, isDigit x = true) → run.length < fuel →
      numberLoop fuel r u true b ⟨run, t, p, e⟩
        = (0, fun s => s, false, b ++ r :: run, ⟨[], t, advance p run, some LexError.eof⟩) := by
  induction run with
  | nil =>
    intro fuel r u b t p e hs hf
    obtain ⟨n, rfl⟩ : ∃ n, fuel = n + 1 := ⟨fuel - 1, by omega⟩
    have hr : isDigit r = true := hs r (by simp)
    simp [numberLoop, hr, tryReadRune_nil, numberLoop_failed, advance]
  | cons w run ih =>
    intro fuel r u b t p e hs hf
    obtain ⟨n, rfl⟩ : ∃ n, fuel = n + 1 := ⟨fuel - 1, by simp at hf; omega⟩
    have hr : isDigit r = true := hs r (by simp)
    have hs2 : ∀ x ∈ w :: run, isDigit x = true :=
      fun x hx => hs x (List.mem_cons_of_mem _ hx)
    have hf2 : run.length < n := by simp at hf; omega
    simp only [numberLoop, hr, Bool.and_self, if_true, tryReadRune_cons]
    rw [ih n w (cancelRead w p) (b ++ [r]) t (step p w) e hs2 hf2]
    simp [advance_cons]

/-- The method `nextNumberToken` on a run of digits that is followed by
another code point `c`: the run is the lexeme and `c` is unread. -/
theorem nextNumberToken_run (run : List Nat) (c : Nat) (b rest : List Nat)
    (t : Token) (p : Position) (e : Option LexError)
    (hrun : ∀ x ∈ run, isDigit x = true) (hc : isDigit c = false) :
    nextNumberToken b ⟨run ++ c :: rest, t, p, e⟩
      = (true, ⟨c :: rest, { t with Kind := NumberToken, Text := b ++ run },
          advance p run, e⟩) := by
  cases run with
  | nil =>
    simp [nextNumberToken, tryReadRune_cons, numberLoop_stop _ _ _ _ _ hc, cancelRead,
      advance]
  | cons w run =>
    have h := numberLoop_run run (run ++ c :: rest).length.succ w c (cancelRead w p) b rest
      t (step p w) e hrun hc (by simp; omega)
    simp only [Nat.succ_eq_add_one] at h
    simp only [nextNumberToken, List.cons_append, tryReadRune_cons]
    rw [h]
    simp [cancelRead, advance_cons, advance_append]

/-- The method `nextNumberToken` on a run of digits that ends the input. -/
theorem nextNumberToken_eof (run : List Nat) (b : List Nat)
    (t : Token) (p : Position) (e : Option LexError)
    (hrun : ∀ x ∈ run, isDigit x = true) :
    nextNumberToken b ⟨run, t, p, e⟩
      = (true, ⟨[], { t with Kind := NumberToken, Text := b ++ run },
          advance p run, some LexError.eof⟩) := by
  cases run with
  | nil =>
    simp [nextNumberToken, tryReadRune_nil, numberLoop_failed, advance]
  | cons w run =>
    have h := numberLoop_eof run run.length.succ w (cancelRead w p) b
      t (step p w) e hrun (by simp)
    simp only [Nat.succ_eq_add_one] at h
    simp only [nextNumberToken, tryReadRune_cons]
    rw [h]
    simp [advance_cons]

/-! ## Line comments -/

theorem lineCommentLoop_stop (fuel : Nat) (r : Nat) (b : List Nat) (l : Lexer)
    (h : isNextLine r = true) : lineCommentLoop fuel r true b l = (r, true, b, l) := by
  cases fuel <;> simp [lineCommentLoop, h]

theorem lineCommentLoop_failed (fuel : Nat) (r : Nat) (b : List Nat) (l : Lexer) :
    lineCommentLoop fuel r false b l = (r, false, b, l) := by
  cases fuel <;> simp [lineCommentLoop]

theorem lineCommentLoop_run (body : List Nat) :
    ∀ (fuel : Nat) (r : Nat) (b rest : List Nat) (t : Token)
      (p : Position) (e : Option LexError),
      (∀ x ∈ r :: body, isNextLine x = false) → body.length < fuel →
      lineCommentLoop fuel r true b ⟨body ++ 10 :: rest, t, p, e⟩
        = (10, true, b ++ r :: body, ⟨rest, t, advance p (body ++ [10]), e⟩) := by
  induction body with
  | nil =>
    intro fuel r b rest t p e hs hf
    obtain ⟨n, rfl⟩ : ∃ n, fuel = n + 1 := ⟨fuel - 1, by omega⟩
    have hr : isNextLine r = false := hs r (by simp)
    simp only [lineCommentLoop, hr, Bool.not_false, Bool.and_self, if_true, List.nil_append,
      readRune_cons]
    rw [lineCommentLoop_stop _ _ _ _ (by decide)]
    simp [advance]
  | cons w body ih =>
    intro fuel r b rest t p e hs hf
    obtain ⟨n, rfl⟩ : ∃ n, fuel = n + 1 := ⟨fuel - 1, by simp at hf; omega⟩
    have hr : isNextLine r = false := hs r (by simp)
    have hs2 : ∀ x ∈ w :: body, isNextLine x = false :=
      fun x hx => hs x (List.mem_cons_of_mem _ hx)
    have hf2 : body.length < n := by simp at hf; omega
    simp only [lineCommentLoop, hr, Bool.not_false, Bool.and_self, if_true, List.cons_append,
      readRune_cons]
    rw [ih n w _ rest t _ e hs2 hf2]
    simp [advance_cons]

theorem lineCommentLoop_eof (body : List Nat) :
    ∀ (fuel : Nat) (r : Nat) (b : List Nat) (t : Token)
      (p : Position) (e : Option LexError),
      (∀ x ∈ r :: body, isNextLine x = false) → body.length < fuel →
      lineCommentLoop fuel r true b ⟨body, t, p, e⟩
        = (0, false, b ++ r :: body, ⟨[], t, advance p body, some LexError.eof⟩) := by
  induction body with
  | nil =>
    intro fuel r b t p e hs hf
    obtain ⟨n, rfl⟩ : ∃ n, fuel = n + 1 := ⟨fuel - 1, by omega⟩
    have hr : isNextLine r = false := hs r (by simp)
    simp [lineCommentLoop, hr, readRune_nil, lineCommentLoop_failed, advance]
  | cons w body ih =>
    intro fuel r b t p e hs hf
    obtain ⟨n, rfl⟩ : ∃ n, fuel = n + 1 := ⟨fuel - 1, by simp at hf; omega⟩
    have hr : isNextLine r = false := hs r (by simp)
    have hs2 : ∀ x ∈ w :: body, isNextLine x = false :=
      fun x hx => hs x (List.mem_cons_of_mem _ hx)
    have hf2 : body.length < n := by simp at hf; omega
    simp only [lineCommentLoop, hr, Bool.not_false, Bool.and_self, if_true, readRune_cons]
    rw [ih n w _ t _ e hs2 hf2]
    simp [advance_cons]

/-- The method `nextLineCommentToken` on a body that is followed by a newline:
the newline is read (and counted by the position) but is not in the lexeme. -/
theorem nextLineCommentToken_newline (body : List Nat) (b rest : List Nat)
    (t : Token) (p : Position) (e : Option LexError)
    (hbody : ∀ x ∈ body, isNextLine x = false) :
    nextLineCommentToken b ⟨body ++ 10 :: rest, t, p, e⟩
      = (true, ⟨rest, { t with Kind := LineCommentToken, Text := b ++ body },
          advance p (body ++ [10]), e⟩) := by
  cases body with
  | nil =>
    simp only [nextLineCommentToken, List.nil_append, readRune_cons]
    rw [lineCommentLoop_stop _ _ _ _ (by decide)]
    simp [advance]
  | cons w body =>
    have h := lineCommentLoop_run body (body ++ 10 :: rest).length.succ w b rest
      t (step p w) e hbody (by simp; omega)
    simp only [Nat.succ_eq_add_one] at h
    simp only [nextLineCommentToken, List.cons_append, readRune_cons]
    rw [h]
    simp [advance_cons]

/-- The method `nextLineCommentToken` on a body that ends the input. -/
theorem nextLineCommentToken_eof (body : List Nat) (b : List Nat)
    (t : Token) (p : Position) (e : Option LexError)
    (hbody : ∀ x ∈ body, isNextLine x = false) :
    nextLineCommentToken b ⟨body, t, p, e⟩
      = (true, ⟨[], { t with Kind := LineCommentToken, Text := b ++ body },
          advance p body, some LexError.eof⟩) := by
  cases body with
  | nil =>
    simp [nextLineCommentToken, readRune_nil, lineCommentLoop_failed, advance]
  | cons w body =>
    have h := lineCommentLoop_eof body body.length.succ w b t (step p w) e hbody (by simp)
    simp only [Nat.succ_eq_add_one] at h
    simp only [nextLineCommentToken, readRune_cons]
    rw [h]
    simp [advance_cons]

/-! ## Character literals -/

/-- The method `nextRuneToken` on an unescaped body `c` and a closing quote. -/
theorem nextRuneToken_plain (c : Nat) (b rest : List Nat) (t : Token) (p : Position)
    (e : Option LexError) (h1 : c ≠ 39) (h2 : c ≠ 92) :
    nextRuneToken b ⟨c :: 39 :: rest, t, p, e⟩
      = (true, ⟨rest, { t with Kind := RuneToken, Text := b ++ [c, 39] },
          advance p [c, 39], e⟩) := by
  simp [nextRuneToken, readEscapedRune, readRune_cons, h1, h2, advance]

/-- The method `nextRuneToken` on a backslash, any code point `c` and a
closing quote. -/
theorem nextRuneToken_escaped (c : Nat) (b rest : List Nat) (t : Token) (p : Position)
    (e : Option LexError) :
    nextRuneToken b ⟨92 :: c :: 39 :: rest, t, p, e⟩
      = (true, ⟨rest, { t with Kind := RuneToken, Text := b ++ [92, c, 39] },
          advance p [92, c, 39], e⟩) := by
  simp [nextRuneToken, readEscapedRune, readRune_cons, advance]

/-- The method `nextRuneToken` on every other input: it returns false with
an error, keeps the token, and has read a prefix of the input. -/
theorem nextRuneToken_fault (rs : List Nat) (b : List Nat) (h : runeBodyOk rs = false) :
    ∃ consumed rest err, rs = consumed ++ rest ∧
      ∀ (t : Token) (p : Position) (e : Option LexError),
        nextRuneToken b ⟨rs, t, p, e⟩ = (false, ⟨rest, t, advance p consumed, some err⟩) := by
  rcases rs with _ | ⟨c, rs⟩
  · exact ⟨[], [], LexError.eof, rfl, fun t p e => by
      simp [nextRuneToken, readEscapedRune, readRune_nil, advance]⟩
  · by_cases hc : c = 92
    · subst hc
      rcases rs with _ | ⟨d, rs⟩
      · exact ⟨[92], [], LexError.eof, rfl, fun t p e => by
          simp [nextRuneToken, readEscapedRune, readRune_nil, readRune_cons, advance]⟩
      · rcases rs with _ | ⟨q, rs⟩
        · exact ⟨[92, d], [], LexError.eof, rfl, fun t p e => by
            simp [nextRuneToken, readEscapedRune, readRune_nil, readRune_cons, advance]⟩
        · have hq : q ≠ 39 := by
            intro hq; subst hq; simp [runeBodyOk] at h
          exact ⟨[92, d, q], rs, LexError.runeShouldEndWith 39, rfl, fun t p e => by
            simp [nextRuneToken, readEscapedRune, readRune_cons, advance, hq]⟩
    · by_cases hc2 : c = 39
      · subst hc2
        exact ⟨[39], rs, LexError.unexpectedCharacterInRune 39, rfl, fun t p e => by
          simp [nextRuneToken, readEscapedRune, readRune_cons, advance]⟩
      · rcases rs with _ | ⟨q, rs⟩
        · exact ⟨[c], [], LexError.eof, rfl, fun t p e => by
            simp [nextRuneToken, readEscapedRune, readRune_nil, readRune_cons, advance, hc, hc2]⟩
        · have hq : q ≠ 39 := by
            intro hq; subst hq
            rcases rs with _ | ⟨x, rs⟩ <;> simp [runeBodyOk, hc, hc2] at h
          exact ⟨[c, q], rs, LexError.runeShouldEndWith 39, rfl, fun t p e => by
            simp [nextRuneToken, readEscapedRune, readRune_cons, advance, hc, hc2, hq]⟩

/-- The shapes of the inputs that `runeBodyOk` accepts. -/
theorem runeBodyOk_iff (rs : List Nat) :
    runeBodyOk rs = true ↔
      (∃ c rest, c ≠ 39 ∧ c ≠ 92 ∧ rs = c :: 39 :: rest) ∨
      (∃ c rest, rs = 92 :: c :: 39 :: rest) := by
  constructor
  · intro h
    rcases rs with _ | ⟨c, _ | ⟨d, _ | ⟨q, rs⟩⟩⟩
    · simp [runeBodyOk] at h
    · simp [runeBodyOk] at h
    · simp only [runeBodyOk, Bool.and_eq_true, bne_iff_ne, ne_eq, beq_iff_eq] at h
      obtain ⟨⟨h1, h2⟩, rfl⟩ := h
      exact Or.inl ⟨c, [], h2, h1, rfl⟩
    · by_cases hc : c = 92
      · subst hc
        simp only [runeBodyOk, if_true, beq_iff_eq] at h
        subst h
        exact Or.inr ⟨d, rs, rfl⟩
      · simp only [runeBodyOk, hc, if_false, Bool.and_eq_true, bne_iff_ne, ne_eq,
          beq_iff_eq] at h
        obtain ⟨h1, rfl⟩ := h
        exact Or.inl ⟨c, q :: rs, h1, hc, rfl⟩
  · rintro (⟨c, rest, h1, h2, rfl⟩ | ⟨c, rest, rfl⟩)
    · rcases rest with _ | ⟨q, rest⟩ <;> simp [runeBodyOk, h1, h2]
    · simp [runeBodyOk]

/-! ## String literals -/

theorem isBodyUnit_cases (u : List Nat) (h : isBodyUnit u = true) :
    (∃ c, c ≠ 92 ∧ c ≠ 34 ∧ u = [c]) ∨ (∃ c, u = [92, c]) := by
  rcases u with _ | ⟨a, _ | ⟨c, _ | ⟨d, u⟩⟩⟩
  · simp [isBodyUnit] at h
  · simp only [isBodyUnit, Bool.and_eq_true, bne_iff_ne, ne_eq] at h
    exact Or.inl ⟨a, h.1, h.2, rfl⟩
  · simp only [isBodyUnit, beq_iff_eq] at h
    subst h
    exact Or.inr ⟨c, rfl⟩
  · simp [isBodyUnit] at h

theorem stringLoop_stop (fuel : Nat) (b : List Nat) (l : Lexer) :
    stringLoop fuel 34 false true b l = (34, false, true, b, l) := by
  cases fuel <;> simp [stringLoop]

theorem stringLoop_failed (fuel : Nat) (r : Nat) (esc : Bool) (b : List Nat) (l : Lexer) :
    stringLoop fuel r esc false b l = (r, esc, false, b, l) := by
  cases fuel <;> simp [stringLoop]

theorem stringLoop_closed (us : List (List Nat)) :
    ∀ (fuel : Nat) (r : Nat) (esc : Bool) (b rest : List Nat) (t : Token)
      (p : Position) (e : Option LexError),
      (∀ u ∈ us, isBodyUnit u = true) → (esc || r != 34) = true →
      us.flatten.length < fuel →
      stringLoop fuel r esc true b ⟨us.flatten ++ 34 :: rest, t, p, e⟩
        = (34, false, true, b ++ r :: us.flatten,
            ⟨rest, t, advance p (us.flatten ++ [34]), e⟩) := by
  induction us with
  | nil =>
    intro fuel r esc b rest t p e _ hc hf
    obtain ⟨n, rfl⟩ : ∃ n, fuel = n + 1 := ⟨fuel - 1, by omega⟩
    simp only [stringLoop, hc, Bool.and_self, if_true, List.flatten_nil, List.nil_append,
      readEscapedRune, readRune_cons]
    simp [stringLoop_stop, advance]
  | cons u us ih =>
    intro fuel r esc b rest t p e hus hc hf
    obtain ⟨n, rfl⟩ : ∃ n, fuel = n + 1 := ⟨fuel - 1, by omega⟩
    have hus2 : ∀ v ∈ us, isBodyUnit v = true := fun v hv => hus v (List.mem_cons_of_mem _ hv)
    rcases isBodyUnit_cases u (hus u (by simp)) with ⟨c, h1, h2, rfl⟩ | ⟨c, rfl⟩
    · have hf2 : us.flatten.length < n := by
        simp only [List.flatten_cons, List.length_append, List.length_cons,
          List.length_nil] at hf
        omega
      simp only [stringLoop, hc, Bool.and_self, if_true, List.flatten_cons, List.cons_append,
        List.nil_append, readEscapedRune, readRune_cons]
      simp only [Bool.not_true, Bool.false_eq_true, if_false, h1]
      rw [ih n c false _ rest t _ e hus2 (by simp [h2]) hf2]
      simp [advance_cons]
    · have hf2 : us.flatten.length < n := by
        simp only [List.flatten_cons, List.length_append, List.length_cons,
          List.length_nil] at hf
        omega
      simp only [stringLoop, hc, Bool.and_self, if_true, List.flatten_cons, List.cons_append,
        List.nil_append, readEscapedRune, readRune_cons]
      simp only [Bool.not_true, Bool.false_eq_true, if_false, if_true]
      rw [ih n c true _ rest t _ e hus2 (by simp) hf2]
      simp [advance_cons]

theorem stringLoop_open (us : List (List Nat)) :
    ∀ (fuel : Nat) (r : Nat) (esc : Bool) (b frag : List Nat) (t : Token)
      (p : Position) (e : Option LexError),
      (∀ u ∈ us, isBodyUnit u = true) → (esc || r != 34) = true →
      (frag = [] ∨ frag = [92]) → us.flatten.length < fuel →
      ∃ r2 esc2 b2, stringLoop fuel r esc true b ⟨us.flatten ++ frag, t, p, e⟩
        = (r2, esc2, false, b2, ⟨[], t, advance p (us.flatten ++ frag),
            some LexError.eof⟩) := by
  induction us with
  | nil =>
    intro fuel r esc b frag t p e _ hc hfrag hf
    obtain ⟨n, rfl⟩ : ∃ n, fuel = n + 1 := ⟨fuel - 1, by omega⟩
    rcases hfrag with rfl | rfl
    · refine ⟨0, false, b ++ [r], ?_⟩
      simp [stringLoop, hc, readEscapedRune, readRune_nil, stringLoop_failed, advance]
    · refine ⟨0, true, b ++ [r, 92], ?_⟩
      simp [stringLoop, hc, readEscapedRune, readRune_nil, readRune_cons, stringLoop_failed,
        advance]
  | cons u us ih =>
    intro fuel r esc b frag t p e hus hc hfrag hf
    obtain ⟨n, rfl⟩ : ∃ n, fuel = n + 1 := ⟨fuel - 1, by omega⟩
    have hus2 : ∀ v ∈ us, isBodyUnit v = true := fun v hv => hus v (List.mem_cons_of_mem _ hv)
    rcases isBodyUnit_cases u (hus u (by simp)) with ⟨c, h1, h2, rfl⟩ | ⟨c, rfl⟩
    · have hf2 : us.flatten.length < n := by
        simp only [List.flatten_cons, List.length_append, List.length_cons,
          List.length_nil] at hf
        omega
      obtain ⟨r2, esc2, b2, h⟩ := ih n c false (b ++ [r]) frag t (step p c) e hus2
        (by simp [h2]) hfrag hf2
      refine ⟨r2, esc2, b2, ?_⟩
      simp only [stringLoop, hc, Bool.and_self, if_true, List.flatten_cons, List.cons_append,
        List.nil_append, readEscapedRune, readRune_cons]
      simp only [Bool.not_true, Bool.false_eq_true, if_false, h1]
      rw [h]
      simp [advance_cons]
    · have hf2 : us.flatten.length < n := by
        simp only [List.flatten_cons, List.length_append, List.length_cons,
          List.length_nil] at hf
        omega
      obtain ⟨r2, esc2, b2, h⟩ := ih n c true (b ++ [r] ++ [92]) frag t
        (step (step p 92) c) e hus2 (by simp) hfrag hf2
      refine ⟨r2, esc2, b2, ?_⟩
      simp only [stringLoop, hc, Bool.and_self, if_true, List.flatten_cons, List.cons_append,
        List.nil_append, readEscapedRune, readRune_cons]
      simp only [Bool.not_true, Bool.false_eq_true, if_false, if_true]
      rw [h]
      simp [advance_cons]

/-- The method `nextStringToken` on body units followed by a closing quote. -/
theorem nextStringToken_closed (us : List (List Nat)) (b rest : List Nat) (t : Token)
    (p : Position) (e : Option LexError) (hus : ∀ u ∈ us, isBodyUnit u = true) :
    nextStringToken b ⟨us.flatten ++ 34 :: rest, t, p, e⟩
      = (true, ⟨rest, { t with Kind := StringToken, Text := b ++ us.flatten ++ [34] },
          advance p (us.flatten ++ [34]), e⟩) := by
  cases us with
  | nil =>
    simp only [nextStringToken, List.flatten_nil, List.nil_append, readEscapedRune,
      readRune_cons]
    simp [stringLoop_stop, advance]
  | cons u us =>
    have hus2 : ∀ v ∈ us, isBodyUnit v = true := fun v hv => hus v (List.mem_cons_of_mem _ hv)
    rcases isBodyUnit_cases u (hus u (by simp)) with ⟨c, h1, h2, rfl⟩ | ⟨c, rfl⟩
    · have h := stringLoop_closed us (us.flatten ++ 34 :: rest).length.succ c false b rest t
        (step p c) e hus2 (by simp [h2]) (by simp; omega)
      simp only [Nat.succ_eq_add_one] at h
      simp only [nextStringToken, List.flatten_cons, List.cons_append, List.nil_append,
        readEscapedRune, readRune_cons]
      simp only [Bool.not_true, Bool.false_eq_true, if_false, h1]
      rw [h]
      simp [advance_cons]
    · have h := stringLoop_closed us (us.flatten ++ 34 :: rest).length.succ c true (b ++ [92])
        rest t (step (step p 92) c) e hus2 (by simp) (by simp; omega)
      simp only [Nat.succ_eq_add_one] at h
      simp only [nextStringToken, List.flatten_cons, List.cons_append, List.nil_append,
        readEscapedRune, readRune_cons]
      simp only [Bool.not_true, Bool.false_eq_true, if_false, if_true]
      rw [h]
      simp [advance_cons]

/-- The method `nextStringToken` on body units that run to the end of the
input, also when a lone backslash is the last code point. -/
theorem nextStringToken_open (us : List (List Nat)) (b frag : List Nat) (t : Token)
    (p : Position) (e : Option LexError) (hus : ∀ u ∈ us, isBodyUnit u = true)
    (hfrag : frag = [] ∨ frag = [92]) :
    nextStringToken b ⟨us.flatten ++ frag, t, p, e⟩
      = (false, ⟨[], t, advance p (us.flatten ++ frag), some LexError.eof⟩) := by
  cases us with
  | nil =>
    rcases hfrag with rfl | rfl
    · simp [nextStringToken, readEscapedRune, readRune_nil, stringLoop_failed, advance]
    · simp [nextStringToken, readEscapedRune, readRune_nil, readRune_cons, stringLoop_failed,
        advance]
  | cons u us =>
    have hus2 : ∀ v ∈ us, isBodyUnit v = true := fun v hv => hus v (List.mem_cons_of_mem _ hv)
    rcases isBodyUnit_cases u (hus u (by simp)) with ⟨c, h1, h2, rfl⟩ | ⟨c, rfl⟩
    · obtain ⟨r2, esc2, b2, h⟩ := stringLoop_open us (us.flatten ++ frag).length.succ c false b
        frag t (step p c) e hus2 (by simp [h2]) hfrag (by simp; omega)
      simp only [Nat.succ_eq_add_one] at h
      simp only [nextStringToken, List.flatten_cons, List.cons_append, List.nil_append,
        readEscapedRune, readRune_cons]
      simp only [Bool.not_true, Bool.false_eq_true, if_false, h1]
      rw [h]
      simp [advance_cons]
    · obtain ⟨r2, esc2, b2, h⟩ := stringLoop_open us (us.flatten ++ frag).length.succ c true
        (b ++ [92]) frag t (step (step p 92) c) e hus2 (by simp) hfrag (by simp; omega)
      simp only [Nat.succ_eq_add_one] at h
      simp only [nextStringToken, List.flatten_cons, List.cons_append, List.nil_append,
        readEscapedRune, readRune_cons]
      simp only [Bool.not_true, Bool.false_eq_true, if_false, if_true]
      rw [h]
      simp [advance_cons]

/-- Every input splits into body units that are followed by a closing quote,
or into body units that run to the end of the input, a last lone backslash
apart. -/
theorem string_units_exhaustive (n : Nat) : ∀ rs : List Nat, rs.length ≤ n →
    (∃ (us : List (List Nat)) (rest : List Nat),
      (∀ u ∈ us, isBodyUnit u = true) ∧ rs = us.flatten ++ 34 :: rest) ∨
    (∃ (us : List (List Nat)) (frag : List Nat),
      (∀ u ∈ us, isBodyUnit u = true) ∧ (frag = [] ∨ frag = [92]) ∧
      rs = us.flatten ++ frag) := by
  induction n with
  | zero =>
    intro rs h
    have : rs = [] := List.length_eq_zero.mp (by omega)
    subst this
    exact Or.inr ⟨[], [], by simp, Or.inl rfl, rfl⟩
  | succ n ih =>
    have ih1 : ∀ rs : List Nat, rs.length ≤ n →
        ∀ u, isBodyUnit u = true →
        (∃ (us : List (List Nat)) (rest : List Nat),
          (∀ v ∈ us, isBodyUnit v = true) ∧ u ++ rs = us.flatten ++ 34 :: rest) ∨
        (∃ (us : List (List Nat)) (frag : List Nat),
          (∀ v ∈ us, isBodyUnit v = true) ∧ (frag = [] ∨ frag = [92]) ∧
          u ++ rs = us.flatten ++ frag) := by
      intro rs h u hu
      rcases ih rs h with ⟨us, rest, h1, rfl⟩ | ⟨us, frag, h1, h2, rfl⟩
      · refine Or.inl ⟨u :: us, rest, ?_, by simp⟩
        intro v hv
        rcases List.mem_cons.mp hv with rfl | hv
        · exact hu
        · exact h1 v hv
      · refine Or.inr ⟨u :: us, frag, ?_, h2, by simp⟩
        intro v hv
        rcases List.mem_cons.mp hv with rfl | hv
        · exact hu
        · exact h1 v hv
    intro rs h
    rcases rs with _ | ⟨c, rs⟩
    · exact Or.inr ⟨[], [], by simp, Or.inl rfl, rfl⟩
    · by_cases hc : c = 34
      · subst hc
        exact Or.inl ⟨[], rs, by simp, rfl⟩
      · by_cases hb : c = 92
        · subst hb
          rcases rs with _ | ⟨d, rs⟩
          · exact Or.inr ⟨[], [92], by simp, Or.inr rfl, rfl⟩
          · have := ih1 rs (by simp at h; omega) [92, d] (by simp [isBodyUnit])
            simpa using this
        · have := ih1 rs (by simp at h; omega) [c] (by simp [isBodyUnit, hc, hb])
          simpa using this

/-! ## The switch of `Next` -/

theorem lookup_mem {α β : Type} [BEq α] [LawfulBEq α] (a : α) (b : β) :
    ∀ xs : List (α × β), xs.lookup a = some b → (a, b) ∈ xs := by
  intro xs
  induction xs with
  | nil => intro h; simp at h
  | cons x xs ih =>
    intro h
    obtain ⟨x1, x2⟩ := x
    by_cases hx : a = x1
    · subst hx
      simp only [List.lookup_cons, beq_self_eq_true] at h
      simp only [Option.some.injEq] at h
      subst h
      exact List.mem_cons_self _ _
    · have hb : (a == x1) = false := by simpa using hx
      simp only [List.lookup_cons, hb] at h
      exact List.mem_cons_of_mem _ (ih h)

theorem lookup_none_of_not_mem {α β : Type} [BEq α] [LawfulBEq α] (a : α) :
    ∀ xs : List (α × β), a ∉ xs.map Prod.fst → xs.lookup a = none := by
  intro xs
  induction xs with
  | nil => intro _; rfl
  | cons x xs ih =>
    intro h
    obtain ⟨x1, x2⟩ := x
    simp only [List.map_cons, List.mem_cons, not_or] at h
    have hb : (a == x1) = false := by simpa using h.1
    simp only [List.lookup_cons, hb]
    exact ih h.2

theorem punctKind_none (c : Nat) (h : punctKind c = none) :
    c ≠ 123 ∧ c ≠ 125 ∧ c ≠ 40 ∧ c ≠ 41 ∧ c ≠ 91 ∧ c ≠ 93 ∧ c ≠ 44 ∧ c ≠ 43 ∧ c ≠ 45 ∧
      c ≠ 42 ∧ c ≠ 60 ∧ c ≠ 62 := by
  refine ⟨?_, ?_, ?_, ?_, ?_, ?_, ?_, ?_, ?_, ?_, ?_, ?_⟩ <;>
    (intro hc; subst hc; exact absurd h (by decide))

theorem NextSwitch_punctTable (ck : Nat × TokenKind) (h : ck ∈ punctTable) (l : Lexer) :
    NextSwitch ck.1 l
      = (true, { l with token := { l.token with Kind := ck.2, Text := [ck.1] } }) := by
  simp only [punctTable, List.mem_cons, List.mem_singleton, List.not_mem_nil, or_false] at h
  rcases h with rfl | rfl | rfl | rfl | rfl | rfl | rfl | rfl | rfl | rfl | rfl | rfl <;>
    simp only [NextSwitch, finishToken, Nat.reduceEqDiff, ↓reduceIte]

theorem NextSwitch_punct (c : Nat) (k : TokenKind) (h : punctKind c = some k) (l : Lexer) :
    NextSwitch c l = (true, { l with token := { l.token with Kind := k, Text := [c] } }) :=
  NextSwitch_punctTable (c, k) (lookup_mem c k punctTable h) l

theorem NextSwitch_quote (l : Lexer) : NextSwitch 39 l = nextRuneToken [39] l := by
  simp [NextSwitch]

theorem NextSwitch_dquote (l : Lexer) : NextSwitch 34 l = nextStringToken [34] l := by
  simp [NextSwitch]

theorem NextSwitch_digit (c : Nat) (h : isDigit c = true) (l : Lexer) :
    NextSwitch c l = nextNumberToken [c] l := by
  have hc : 48 ≤ c ∧ c ≤ 57 := by simpa [isDigit] using h
  have hne : ∀ k, (k < 48 ∨ 57 < k) → ¬ c = k := fun k hk => by omega
  simp only [NextSwitch, hne 39 (by decide), hne 34 (by decide), hne 123 (by decide),
    hne 125 (by decide), hne 40 (by decide), hne 41 (by decide), hne 91 (by decide),
    hne 93 (by decide), hne 44 (by decide), hne 43 (by decide), hne 45 (by decide),
    hne 42 (by decide), hne 60 (by decide), hne 62 (by decide), hne 47 (by decide),
    hne 58 (by decide), hne 38 (by decide), hne 61 (by decide), h, ↓reduceIte]

theorem NextSwitch_letter (c : Nat) (h : isLetter c = true) (l : Lexer) :
    NextSwitch c l = nextIdentifierToken [c] l := by
  have hc : (97 ≤ c ∧ c ≤ 122) ∨ (65 ≤ c ∧ c ≤ 90) := by simpa [isLetter] using h
  have hd : isDigit c = false := by
    simp only [isDigit, Bool.and_eq_false_iff, decide_eq_false_iff_not]
    omega
  have hne : ∀ k, (k < 65 ∨ (90 < k ∧ k < 97) ∨ 122 < k) → ¬ c = k := fun k hk => by omega
  simp only [NextSwitch, hne 39 (by decide), hne 34 (by decide), hne 123 (by decide),
    hne 125 (by decide), hne 40 (by decide), hne 41 (by decide), hne 91 (by decide),
    hne 93 (by decide), hne 44 (by decide), hne 43 (by decide), hne 45 (by decide),
    hne 42 (by decide), hne 60 (by decide), hne 62 (by decide), hne 47 (by decide),
    hne 58 (by decide), hne 38 (by decide), hne 61 (by decide), h, hd, ↓reduceIte,
    Bool.false_eq_true]

theorem NextSwitch_slash_comment (rest : List Nat) (t : Token) (p : Position)
    (e : Option LexError) :
    NextSwitch 47 ⟨47 :: rest, t, p, e⟩ = nextLineCommentToken [47, 47] ⟨rest, t, step p 47, e⟩ := by
  simp [NextSwitch, tryReadRune_cons]

theorem NextSwitch_slash_other (d : Nat) (rest : List Nat) (t : Token) (p : Position)
    (e : Option LexError) (h : d ≠ 47) :
    NextSwitch 47 ⟨d :: rest, t, p, e⟩
      = (true, ⟨d :: rest, { t with Kind := DivToken, Text := [47] }, p, e⟩) := by
  simp [NextSwitch, tryReadRune_cons, h, cancelRead, finishToken]

theorem NextSwitch_slash_eof (t : Token) (p : Position) (e : Option LexError) :
    NextSwitch 47 ⟨[], t, p, e⟩
      = (true, ⟨[], { t with Kind := DivToken, Text := [47] }, p, some LexError.eof⟩) := by
  simp [NextSwitch, tryReadRune_nil, finishToken]

theorem NextSwitch_amp_amp (rest : List Nat) (t : Token) (p : Position)
    (e : Option LexError) :
    NextSwitch 38 ⟨38 :: rest, t, p, e⟩
      = (true, ⟨rest, { t with Kind := BoolAndToken, Text := [38, 38] }, step p 38, e⟩) := by
  simp [NextSwitch, tryReadRune_cons, finishToken]

theorem NextSwitch_amp_other (d : Nat) (rest : List Nat) (t : Token) (p : Position)
    (e : Option LexError) (h : d ≠ 38) :
    NextSwitch 38 ⟨d :: rest, t, p, e⟩
      = (true, ⟨d :: rest, { t with Kind := AndToken, Text := [38] }, p, e⟩) := by
  simp [NextSwitch, tryReadRune_cons, h, cancelRead, finishToken]

theorem NextSwitch_amp_eof (t : Token) (p : Position) (e : Option LexError) :
    NextSwitch 38 ⟨[], t, p, e⟩
      = (true, ⟨[], { t with Kind := AndToken, Text := [38] }, p, some LexError.eof⟩) := by
  simp [NextSwitch, tryReadRune_nil, finishToken]

theorem NextSwitch_eq_eq (rest : List Nat) (t : Token) (p : Position)
    (e : Option LexError) :
    NextSwitch 61 ⟨61 :: rest, t, p, e⟩
      = (true, ⟨rest, { t with Kind := EqualToken, Text := [61, 61] }, step p 61, e⟩) := by
  simp [NextSwitch, tryReadRune_cons, finishToken]

theorem NextSwitch_eq_other (d : Nat) (rest : List Nat) (t : Token) (p : Position)
    (e : Option LexError) (h : d ≠ 61) :
    NextSwitch 61 ⟨d :: rest, t, p, e⟩
      = (true, ⟨d :: rest, { t with Kind := AssignToken, Text := [61] }, p, e⟩) := by
  simp [NextSwitch, tryReadRune_cons, h, cancelRead, finishToken]

theorem NextSwitch_eq_eof (t : Token) (p : Position) (e : Option LexError) :
    NextSwitch 61 ⟨[], t, p, e⟩
      = (true, ⟨[], { t with Kind := AssignToken, Text := [61] }, p, some LexError.eof⟩) := by
  simp [NextSwitch, tryReadRune_nil, finishToken]

theorem NextSwitch_colon_eq (rest : List Nat) (t : Token) (p : Position)
    (e : Option LexError) :
    NextSwitch 58 ⟨61 :: rest, t, p, e⟩
      = (true, ⟨rest, { t with Kind := InitToken, Text := [58, 61] }, step p 61, e⟩) := by
  simp [NextSwitch, readRune_cons]

theorem NextSwitch_colon_colon (rest : List Nat) (t : Token) (p : Position)
    (e : Option LexError) :
    NextSwitch 58 ⟨58 :: rest, t, p, e⟩
      = (true, ⟨rest, { t with Kind := ScopeToken, Text := [58, 58] }, step p 58, e⟩) := by
  simp [NextSwitch, readRune_cons]

theorem NextSwitch_colon_other (d : Nat) (rest : List Nat) (t : Token) (p : Position)
    (e : Option LexError) (h1 : d ≠ 61) (h2 : d ≠ 58) :
    NextSwitch 58 ⟨d :: rest, t, p, e⟩
      = (false, ⟨rest, { t with Kind := InvalidToken, Text := [58] }, step p d,
          some (LexError.unknownToken 58)⟩) := by
  simp [NextSwitch, readRune_cons, h1, h2]

theorem NextSwitch_colon_eof (t : Token) (p : Position) (e : Option LexError) :
    NextSwitch 58 ⟨[], t, p, e⟩
      = (false, ⟨[], { t with Kind := InvalidToken, Text := [58] }, p,
          some (LexError.unknownToken 58)⟩) := by
  simp [NextSwitch, readRune_nil]

/-- The default case of the switch: a code point that starts no token. -/
theorem NextSwitch_unknown (c : Nat) (l : Lexer) (h1 : c ≠ 39) (h2 : c ≠ 34)
    (h3 : punctKind c = none) (h4 : c ≠ 47) (h5 : c ≠ 58) (h6 : c ≠ 38) (h7 : c ≠ 61)
    (h8 : isDigit c = false) (h9 : isLetter c = false) :
    NextSwitch c l
      = (false, { l with token := { l.token with Kind := InvalidToken, Text := [c] },
                         err := some (LexError.unknownToken c) }) := by
  obtain ⟨a1, a2, a3, a4, a5, a6, a7, a8, a9, a10, a11, a12⟩ := punctKind_none c h3
  simp [NextSwitch, *]

/-- A list is a run of code points with the property `P` followed by a code
point without it, or has the property throughout. -/
theorem span_split (P : Nat → Bool) (rs : List Nat) :
    (∃ (run : List Nat) (c : Nat) (rest : List Nat),
      (∀ x ∈ run, P x = true) ∧ P c = false ∧ rs = run ++ c :: rest) ∨
    (∀ x ∈ rs, P x = true) := by
  induction rs with
  | nil => exact Or.inr (by simp)
  | cons a rs ih =>
    cases ha : P a
    · exact Or.inl ⟨[], a, rs, by simp, ha, rfl⟩
    · rcases ih with ⟨run, c, rest, h1, h2, rfl⟩ | h
      · refine Or.inl ⟨a :: run, c, rest, ?_, h2, rfl⟩
        intro x hx
        rcases List.mem_cons.mp hx with rfl | hx
        · exact ha
        · exact h1 x hx
      · refine Or.inr ?_
        intro x hx
        rcases List.mem_cons.mp hx with rfl | hx
        · exact ha
        · exact h x hx

theorem allSpace_nil : allSpace [] := by simp [allSpace]

theorem allSpace_newline : allSpace [10] := by decide

/-- What the switch of `Next` does to the lexer state on every input: it reads
`body` and then `trail` (whitespace; only a line comment reads a newline after
its lexeme), leaves the token position alone, a true result has the lexeme
`c :: body` and a kind, both the same for every earlier token `t`, and a false
result has an error. -/
theorem NextSwitch_frame (c : Nat) (rest : List Nat) (p : Position) (e : Option LexError) :
    ∃ (ok : Bool) (body trail rest2 : List Nat) (e2 : Option LexError) (f : Token → Token),
      (∀ t, NextSwitch c ⟨rest, t, p, e⟩
        = (ok, ⟨rest2, f t, advance p (body ++ trail), e2⟩)) ∧
      rest = body ++ trail ++ rest2 ∧ allSpace trail ∧ (∀ t, (f t).Position = t.Position) ∧
      (ok = true → ∃ k, ∀ t, f t = ⟨k, c :: body, t.Position⟩) ∧ (ok = false → e2 ≠ none) := by
  by_cases h39 : c = 39
  · subst h39
    simp only [NextSwitch_quote]
    cases hok : runeBodyOk rest
    · obtain ⟨consumed, rest2, err, hsplit, heq⟩ := nextRuneToken_fault rest [39] hok
      exact ⟨false, consumed, [], rest2, some err, fun t => t,
        fun t => by simpa using heq t p e, by simpa using hsplit,
        allSpace_nil, fun _ => rfl, by simp, by simp⟩
    · rcases (runeBodyOk_iff rest).mp hok with ⟨d, r2, h1, h2, rfl⟩ | ⟨d, r2, rfl⟩
      · exact ⟨true, [d, 39], [], r2, e, fun t => ⟨RuneToken, [39, d, 39], t.Position⟩,
          fun t => by simpa using nextRuneToken_plain d [39] r2 t p e h1 h2, by simp,
          allSpace_nil, fun _ => rfl, fun _ => ⟨_, fun _ => rfl⟩, by simp⟩
      · exact ⟨true, [92, d, 39], [], r2, e,
          fun t => ⟨RuneToken, [39, 92, d, 39], t.Position⟩,
          fun t => by simpa using nextRuneToken_escaped d [39] r2 t p e, by simp,
          allSpace_nil, fun _ => rfl, fun _ => ⟨_, fun _ => rfl⟩, by simp⟩
  by_cases h34 : c = 34
  · subst h34
    simp only [NextSwitch_dquote]
    rcases string_units_exhaustive rest.length rest (le_refl _) with
      ⟨us, r2, hus, rfl⟩ | ⟨us, frag, hus, hfrag, rfl⟩
    · exact ⟨true, us.flatten ++ [34], [], r2, e,
        fun t => ⟨StringToken, 34 :: (us.flatten ++ [34]), t.Position⟩,
        fun t => by simpa using nextStringToken_closed us [34] r2 t p e hus, by simp,
        allSpace_nil, fun _ => rfl, fun _ => ⟨_, fun _ => rfl⟩, by simp⟩
    · exact ⟨false, us.flatten ++ frag, [], [], some LexError.eof, fun t => t,
        fun t => by simpa using nextStringToken_open us [34] frag t p e hus hfrag, by simp,
        allSpace_nil, fun _ => rfl, by simp, by simp⟩
  cases hpk : punctKind c with
  | some k =>
    exact ⟨true, [], [], rest, e, fun t => ⟨k, [c], t.Position⟩,
      fun t => by simpa [advance] using NextSwitch_punct c k hpk ⟨rest, t, p, e⟩, by simp,
      allSpace_nil, fun _ => rfl, fun _ => ⟨_, fun _ => rfl⟩, by simp⟩
  | none =>
  by_cases h47 : c = 47
  · subst h47
    rcases rest with _ | ⟨d, rest⟩
    · exact ⟨true, [], [], [], some LexError.eof, fun t => ⟨DivToken, [47], t.Position⟩,
        fun t => by simpa [advance] using NextSwitch_slash_eof t p e, by simp, allSpace_nil,
        fun _ => rfl, fun _ => ⟨_, fun _ => rfl⟩, by simp⟩
    · by_cases hd : d = 47
      · subst hd
        simp only [NextSwitch_slash_comment]
        rcases span_split (fun x => !isNextLine x) rest with ⟨run, x, r2, h1, h2, rfl⟩ | h
        · have hx : x = 10 := by simpa [isNextLine] using h2
          subst hx
          have h1b : ∀ y ∈ run, isNextLine y = false := fun y hy => by simpa using h1 y hy
          refine ⟨true, 47 :: run, [10], r2, e,
            fun t => ⟨LineCommentToken, 47 :: 47 :: run, t.Position⟩, fun t => ?_, by simp,
            allSpace_newline, fun _ => rfl, fun _ => ⟨_, fun _ => rfl⟩, by simp⟩
          rw [nextLineCommentToken_newline run [47, 47] r2 t (step p 47) e h1b]
          simp [advance_cons]
        · have h1b : ∀ y ∈ rest, isNextLine y = false := fun y hy => by simpa using h y hy
          refine ⟨true, 47 :: rest, [], [], some LexError.eof,
            fun t => ⟨LineCommentToken, 47 :: 47 :: rest, t.Position⟩, fun t => ?_, by simp,
            allSpace_nil, fun _ => rfl, fun _ => ⟨_, fun _ => rfl⟩, by simp⟩
          rw [nextLineCommentToken_eof rest [47, 47] t (step p 47) e h1b]
          simp [advance_cons]
      · exact ⟨true, [], [], d :: rest, e, fun t => ⟨DivToken, [47], t.Position⟩,
          fun t => by simpa [advance] using NextSwitch_slash_other d rest t p e hd, by simp,
          allSpace_nil, fun _ => rfl, fun _ => ⟨_, fun _ => rfl⟩, by simp⟩
  by_cases h58 : c = 58
  · subst h58
    rcases rest with _ | ⟨d, rest⟩
    · exact ⟨false, [], [], [], some (LexError.unknownToken 58),
        fun t => ⟨InvalidToken, [58], t.Position⟩,
        fun t => by simpa [advance] using NextSwitch_colon_eof t p e, by simp, allSpace_nil,
        fun _ => rfl, by simp, by simp⟩
    · by_cases hd : d = 61
      · subst hd
        exact ⟨true, [61], [], rest, e, fun t => ⟨InitToken, [58, 61], t.Position⟩,
          fun t => by simpa [advance] using NextSwitch_colon_eq rest t p e, by simp,
          allSpace_nil, fun _ => rfl, fun _ => ⟨_, fun _ => rfl⟩, by simp⟩
      · by_cases hd2 : d = 58
        · subst hd2
          exact ⟨true, [58], [], rest, e, fun t => ⟨ScopeToken, [58, 58], t.Position⟩,
            fun t => by simpa [advance] using NextSwitch_colon_colon rest t p e, by simp,
            allSpace_nil, fun _ => rfl, fun _ => ⟨_, fun _ => rfl⟩, by simp⟩
        · exact ⟨false, [d], [], rest, some (LexError.unknownToken 58),
            fun t => ⟨InvalidToken, [58], t.Position⟩,
            fun t => by simpa [advance] using NextSwitch_colon_other d rest t p e hd hd2,
            by simp, allSpace_nil, fun _ => rfl, by simp, by simp⟩
  by_cases h38 : c = 38
  · subst h38
    rcases rest with _ | ⟨d, rest⟩
    · exact ⟨true, [], [], [], some LexError.eof, fun t => ⟨AndToken, [38], t.Position⟩,
        fun t => by simpa [advance] using NextSwitch_amp_eof t p e, by simp, allSpace_nil,
        fun _ => rfl, fun _ => ⟨_, fun _ => rfl⟩, by simp⟩
    · by_cases hd : d = 38
      · subst hd
        exact ⟨true, [38], [], rest, e, fun t => ⟨BoolAndToken, [38, 38], t.Position⟩,
          fun t => by simpa [advance] using NextSwitch_amp_amp rest t p e, by simp,
          allSpace_nil, fun _ => rfl, fun _ => ⟨_, fun _ => rfl⟩, by simp⟩
      · exact ⟨true, [], [], d :: rest, e, fun t => ⟨AndToken, [38], t.Position⟩,
          fun t => by simpa [advance] using NextSwitch_amp_other d rest t p e hd, by simp,
          allSpace_nil, fun _ => rfl, fun _ => ⟨_, fun _ => rfl⟩, by simp⟩
  by_cases h61 : c = 61
  · subst h61
    rcases rest with _ | ⟨d, rest⟩
    · exact ⟨true, [], [], [], some LexError.eof, fun t => ⟨AssignToken, [61], t.Position⟩,
        fun t => by simpa [advance] using NextSwitch_eq_eof t p e, by simp, allSpace_nil,
        fun _ => rfl, fun _ => ⟨_, fun _ => rfl⟩, by simp⟩
    · by_cases hd : d = 61
      · subst hd
        exact ⟨true, [61], [], rest, e, fun t => ⟨EqualToken, [61, 61], t.Position⟩,
          fun t => by simpa [advance] using NextSwitch_eq_eq rest t p e, by simp,
          allSpace_nil, fun _ => rfl, fun _ => ⟨_, fun _ => rfl⟩, by simp⟩
      · exact ⟨true, [], [], d :: rest, e, fun t => ⟨AssignToken, [61], t.Position⟩,
          fun t => by simpa [advance] using NextSwitch_eq_other d rest t p e hd, by simp,
          allSpace_nil, fun _ => rfl, fun _ => ⟨_, fun _ => rfl⟩, by simp⟩
  cases hdig : isDigit c with
  | true =>
    simp only [NextSwitch_digit c hdig]
    rcases span_split isDigit rest with ⟨run, x, r2, h1, h2, rfl⟩ | h
    · exact ⟨true, run, [], x :: r2, e, fun t => ⟨NumberToken, c :: run, t.Position⟩,
        fun t => by simpa using nextNumberToken_run run x [c] r2 t p e h1 h2, by simp,
        allSpace_nil, fun _ => rfl, fun _ => ⟨_, fun _ => rfl⟩, by simp⟩
    · exact ⟨true, rest, [], [], some LexError.eof,
        fun t => ⟨NumberToken, c :: rest, t.Position⟩,
        fun t => by simpa using nextNumberToken_eof rest [c] t p e h, by simp,
        allSpace_nil, fun _ => rfl, fun _ => ⟨_, fun _ => rfl⟩, by simp⟩
  | false =>
  cases hlet : isLetter c with
  | true =>
    simp only [NextSwitch_letter c hlet]
    rcases span_split isAlnum rest with ⟨run, x, r2, h1, h2, rfl⟩ | h
    · exact ⟨true, run, [], x :: r2, e,
        fun t => ⟨identifierKind (c :: run), c :: run, t.Position⟩,
        fun t => by simpa using nextIdentifierToken_run run x [c] r2 t p e h1 h2, by simp,
        allSpace_nil, fun _ => rfl, fun _ => ⟨_, fun _ => rfl⟩, by simp⟩
    · exact ⟨true, rest, [], [], some LexError.eof,
        fun t => ⟨identifierKind (c :: rest), c :: rest, t.Position⟩,
        fun t => by simpa using nextIdentifierToken_eof rest [c] t p e h, by simp,
        allSpace_nil, fun _ => rfl, fun _ => ⟨_, fun _ => rfl⟩, by simp⟩
  | false =>
    exact ⟨false, [], [], rest, some (LexError.unknownToken c),
      fun t => ⟨InvalidToken, [c], t.Position⟩,
      fun t => by
        simpa [advance] using
          NextSwitch_unknown c ⟨rest, t, p, e⟩ h39 h34 hpk h47 h58 h38 h61 hdig hlet,
      by simp, allSpace_nil, fun _ => rfl, by simp, by simp⟩

/-! ## One call of `Next` -/

/-- An input is whitespace followed by a code point that is not whitespace, or
is whitespace throughout. -/
theorem space_split (rs : List Nat) :
    (∃ (ws : List Nat) (c : Nat) (rest : List Nat),
      allSpace ws ∧ isSpace c = false ∧ rs = ws ++ c :: rest) ∨ allSpace rs :=
  span_split isSpace rs

theorem allSpace_append {xs ys : List Nat} (hx : allSpace xs) (hy : allSpace ys) :
    allSpace (xs ++ ys) := by
  intro c hc
  rcases List.mem_append.mp hc with h | h
  · exact hx c h
  · exact hy c h

theorem not_allSpace_of_mem {ws rest : List Nat} {c : Nat} (hc : isSpace c = false) :
    ¬ allSpace (ws ++ c :: rest) := by
  intro h
  have := h c (by simp)
  simp [hc] at this

/-- What one call of `Next` does on every state: it reads the whitespace `ws`,
then `body`, then `trail` (whitespace); the token position is the position
after `ws`; a true result has the lexeme `body`, which starts with a code
point that is not whitespace, and a kind, both the same for every earlier
token `t`; a false result has a nil error exactly when the unread input was
whitespace only. -/
theorem Next_frame (rs : List Nat) (p : Position) (e : Option LexError) :
    ∃ (ok : Bool) (ws body trail rest2 : List Nat) (e2 : Option LexError) (f : Token → Token),
      (∀ t, Next ⟨rs, t, p, e⟩
        = (ok, ⟨rest2, f t, advance p (ws ++ body ++ trail), e2⟩)) ∧
      rs = ws ++ body ++ trail ++ rest2 ∧ allSpace ws ∧ allSpace trail ∧
      (∀ t, (f t).Position = advance p ws) ∧
      (ok = true → (∃ k, ∀ t, f t = ⟨k, body, advance p ws⟩) ∧
        ∃ c tl, body = c :: tl ∧ isSpace c = false) ∧
      (ok = false → (e2 = none ↔ allSpace rs)) := by
  rcases space_split rs with ⟨ws, c, rest, hws, hc, rfl⟩ | hall
  · obtain ⟨ok, body, trail, rest2, e2, f, heq, hrest, htrail, hpos, htext, herr⟩ :=
      NextSwitch_frame c rest (advance p (ws ++ [c])) e
    refine ⟨ok, ws, c :: body, trail, rest2, e2,
      fun t => f { t with Position := advance p ws }, ?_, ?_, hws, htrail, ?_, ?_, ?_⟩
    · intro t
      rw [Next_token ws c rest t p e hws hc, heq]
      simp [advance_append, advance_cons, advance_nil]
    · simp [hrest]
    · intro t
      simpa using hpos { t with Position := advance p ws }
    · intro h
      obtain ⟨k, hk⟩ := htext h
      exact ⟨⟨k, fun t => by simpa using hk { t with Position := advance p ws }⟩,
        c, body, rfl, hc⟩
    · intro h
      constructor
      · intro h2
        exact absurd h2 (herr h)
      · intro h2
        exact absurd h2 (not_allSpace_of_mem hc)
  · refine ⟨false, rs, [], [], [], none, fun t => { t with Position := advance p rs },
      ?_, by simp, hall, allSpace_nil, fun _ => rfl, by simp, ?_⟩
    · intro t
      rw [Next_eof rs t p e hall]
      simp
    · intro _
      simp [hall]

/-! ## Positions (C1) -/

theorem advance_snoc (p : Position) (pre : List Nat) (c : Nat) :
    advance p (pre ++ [c]) = step (advance p pre) c := by
  simp [advance, List.foldl_append]

theorem advance_origin (pre : List Nat) :
    advance ⟨0, 0⟩ pre = ⟨lineOf pre, columnOf pre⟩ := by
  induction pre using List.reverseRecOn with
  | nil => rfl
  | append_singleton pre c ih =>
    rw [advance_snoc, ih]
    by_cases hc : c = 10
    · subst hc
      simp [step, isNextLine, lineOf, columnOf]
    · simp [step, isNextLine, lineOf, columnOf, hc, List.count_singleton]

/-- Every state of a scan has read a prefix of the input, and its position is
the position of the end of that prefix. -/
theorem nextCalls_invariant (inp : List Nat) (k : Nat) :
    ∃ pre, inp = pre ++ (nextCalls k (NewLexer inp)).reader ∧
      (nextCalls k (NewLexer inp)).position = advance ⟨0, 0⟩ pre := by
  induction k with
  | zero => exact ⟨[], rfl, rfl⟩
  | succ k ih =>
    obtain ⟨pre, h1, h2⟩ := ih
    simp only [nextCalls]
    generalize nextCalls k (NewLexer inp) = l at h1 h2
    obtain ⟨rs, t, p, e⟩ := l
    obtain ⟨ok, ws, body, trail, rest2, e2, f, heq, hrs, -, -, -, -, -⟩ := Next_frame rs p e
    simp only at h1 h2
    subst h2
    refine ⟨pre ++ (ws ++ body ++ trail), ?_, ?_⟩
    · rw [heq t, h1, hrs]
      simp
    · rw [heq t]
      simp [advance_append]

/-- C1: on every input, when a call of `Next` in a scan from a fresh lexer
returns true, the unread input before the call was whitespace `ws` followed by
the first code point `c` of the token, and `Token().Position` has for line the
number of newlines of the input before `c` and for column the number of code
points between the last such newline (or the start of the input) and `c`. -/
theorem C1_token_position (inp : List Nat) (k : Nat)
    (h : (Next (nextCalls k (NewLexer inp))).1 = true) :
    ∃ (pre ws : List Nat) (c : Nat) (rest : List Nat),
      inp = pre ++ ws ++ c :: rest ∧
      (nextCalls k (NewLexer inp)).reader = ws ++ c :: rest ∧
      allSpace ws ∧ isSpace c = false ∧
      (Next (nextCalls k (NewLexer inp))).2.token.Text.head? = some c ∧
      (Next (nextCalls k (NewLexer inp))).2.token.Position.Line = lineOf (pre ++ ws) ∧
      (Next (nextCalls k (NewLexer inp))).2.token.Position.Column = columnOf (pre ++ ws) := by
  obtain ⟨pre, h1, h2⟩ := nextCalls_invariant inp k
  generalize nextCalls k (NewLexer inp) = l at h h1 h2
  obtain ⟨rs, t, p, e⟩ := l
  obtain ⟨ok, ws, body, trail, rest2, e2, f, heq, hrs, hws, -, hpos, htext, -⟩ :=
    Next_frame rs p e
  simp only at h1 h2
  subst h2
  rw [heq t] at h ⊢
  simp only at h
  obtain ⟨⟨kind, hkind⟩, c, tl, hbody, hc⟩ := htext h
  subst hbody
  refine ⟨pre, ws, c, tl ++ trail ++ rest2, ?_, ?_, hws, hc, ?_, ?_, ?_⟩
  · rw [h1, hrs]; simp
  · simp [hrs]
  · simp [hkind t]
  · rw [hpos t, ← advance_append, advance_origin]
  · rw [hpos t, ← advance_append, advance_origin]

/-- C1, at the input a, b, newline, c, d: the second call returns the token
`cd` at line 1, column 0, as the theorem says, and the first call returns the
token `ab` at line 0, column 0. -/
theorem C1_token_position_witness :
    ((Next (nextCalls 1 (NewLexer (runes "ab\ncd")))).2.token
        = ⟨IdentifierToken, runes "cd", ⟨1, 0⟩⟩ ∧
      (Next (nextCalls 0 (NewLexer (runes "ab\ncd")))).2.token
        = ⟨IdentifierToken, runes "ab", ⟨0, 0⟩⟩) ∧
    ∃ (pre ws : List Nat) (c : Nat) (rest : List Nat),
      runes "ab\ncd" = pre ++ ws ++ c :: rest ∧
      (nextCalls 1 (NewLexer (runes "ab\ncd"))).reader = ws ++ c :: rest ∧
      allSpace ws ∧ isSpace c = false ∧
      (Next (nextCalls 1 (NewLexer (runes "ab\ncd")))).2.token.Text.head? = some c ∧
      (Next (nextCalls 1 (NewLexer (runes "ab\ncd")))).2.token.Position.Line
        = lineOf (pre ++ ws) ∧
      (Next (nextCalls 1 (NewLexer (runes "ab\ncd")))).2.token.Position.Column
        = columnOf (pre ++ ws) :=
  ⟨by decide, C1_token_position (runes "ab\ncd") 1 (by decide)⟩

/-! ## Round trip (C2) -/

theorem collapseAux_spaces (g y : List Nat) (s : Bool) (hg : allSpace g) :
    collapseAux s s (g ++ y) = collapseAux s s y := by
  induction g with
  | nil => rfl
  | cons a g ih =>
    have ha : isSpace a = true := hg a (by simp)
    have hg2 : allSpace g := fun x hx => hg x (List.mem_cons_of_mem _ hx)
    simp [collapseAux, ha, ih hg2]

theorem collapseAux_squeeze (g y : List Nat) (s p : Bool) (hg : allSpace g) :
    collapseAux s p (g ++ y) = collapseAux s p (squeeze g ++ y) := by
  cases g with
  | nil => simp [squeeze]
  | cons a g =>
    have ha : isSpace a = true := hg a (by simp)
    have hg2 : allSpace g := fun x hx => hg x (List.mem_cons_of_mem _ hx)
    have h32 : isSpace 32 = true := by decide
    simp [squeeze, collapseAux, ha, h32, collapseAux_spaces g y s hg2]

theorem collapseAux_congr (x y y2 : List Nat)
    (h : ∀ s p, collapseAux s p y = collapseAux s p y2) :
    ∀ s p, collapseAux s p (x ++ y) = collapseAux s p (x ++ y2) := by
  induction x with
  | nil => simpa using h
  | cons a x ih =>
    intro s p
    simp only [List.cons_append, collapseAux, List.append_eq, ih]

theorem collapseAux_trailing (g : List Nat) (hg : allSpace g) :
    ∀ s p, collapseAux s p g = [] := by
  induction g with
  | nil => intro s p; rfl
  | cons a g ih =>
    intro s p
    have ha : isSpace a = true := hg a (by simp)
    have hg2 : allSpace g := fun x hx => hg x (List.mem_cons_of_mem _ hx)
    simp [collapseAux, ha, ih hg2]

theorem squeeze_allSpace (g : List Nat) : allSpace (squeeze g) := by
  unfold squeeze
  split
  · exact allSpace_nil
  · intro c hc
    simp only [List.mem_singleton] at hc
    subst hc
    decide

theorem collapseAux_weave (gaps : List (List Nat)) :
    ∀ (texts : List (List Nat)) (last : List Nat), (∀ g ∈ gaps, allSpace g) → allSpace last →
      ∀ s p, collapseAux s p (weave gaps texts ++ last)
        = collapseAux s p (weave (gaps.map squeeze) texts) := by
  induction gaps with
  | nil =>
    intro texts last _ hlast s p
    simp [weave, collapseAux_trailing last hlast, collapseAux]
  | cons g gaps ih =>
    intro texts last hg hlast s p
    cases texts with
    | nil => simp [weave, collapseAux_trailing last hlast, collapseAux]
    | cons t texts =>
      have hg1 : allSpace g := hg g (by simp)
      have hg2 : ∀ x ∈ gaps, allSpace x := fun x hx => hg x (List.mem_cons_of_mem _ hx)
      simp only [weave, List.map_cons, List.append_assoc]
      rw [collapseAux_squeeze g _ s p hg1]
      exact collapseAux_congr (squeeze g) _ _
        (collapseAux_congr t _ _ (ih texts last hg2 hlast)) s p

/-- The normalization does not see whether the whitespace runs of the input
are kept or each replaced by one space between tokens and dropped at the two
ends. -/
theorem normalizeSpace_rejoin (gaps texts : List (List Nat)) (last : List Nat)
    (hlen : gaps.length = texts.length) (hg : ∀ g ∈ gaps, allSpace g)
    (hlast : allSpace last) :
    normalizeSpace (rejoin gaps texts) = normalizeSpace (weave gaps texts ++ last) := by
  unfold normalizeSpace
  rw [collapseAux_weave gaps texts last hg hlast]
  cases gaps with
  | nil =>
    cases texts with
    | nil => simp [rejoin, weave, collapseAux]
    | cons t texts => simp at hlen
  | cons g gaps =>
    cases texts with
    | nil => simp at hlen
    | cons t texts =>
      simp only [rejoin, List.tail_cons, weave, List.map_cons, List.append_assoc,
        List.nil_append]
      rw [collapseAux_spaces (squeeze g) _ false (squeeze_allSpace g)]

/-- The whitespace that a token leaves read behind it joins the gap in front
of the next token, or the whitespace at the end of the input. -/
theorem weave_absorb (trail : List Nat) (htrail : allSpace trail) :
    ∀ (gaps texts : List (List Nat)) (last : List Nat), gaps.length = texts.length →
      (∀ g ∈ gaps, allSpace g) → allSpace last →
      ∃ (gaps2 : List (List Nat)) (last2 : List Nat),
        gaps2.length = texts.length ∧ (∀ g ∈ gaps2, allSpace g) ∧ allSpace last2 ∧
        trail ++ (weave gaps texts ++ last) = weave gaps2 texts ++ last2 := by
  intro gaps texts last hlen hg hlast
  cases gaps with
  | nil =>
    cases texts with
    | nil => exact ⟨[], trail ++ last, rfl, by simp, allSpace_append htrail hlast, by simp [weave]⟩
    | cons t texts => simp at hlen
  | cons g gaps =>
    cases texts with
    | nil => simp at hlen
    | cons t texts =>
      refine ⟨(trail ++ g) :: gaps, last, by simpa using hlen, ?_, hlast, by simp [weave]⟩
      intro x hx
      rcases List.mem_cons.mp hx with rfl | hx
      · exact allSpace_append htrail (hg g (by simp))
      · exact hg x (List.mem_cons_of_mem _ hx)

/-- A scan that ends cleanly has read gaps and token texts in turn. -/
theorem scan_weave (fuel : Nat) :
    ∀ (l : Lexer) (ts : List Token) (lf : Lexer), scan fuel l = some (ts, lf) →
      lf.err = none →
      ∃ (gaps : List (List Nat)) (last : List Nat),
        gaps.length = (ts.map Token.Text).length ∧ (∀ g ∈ gaps, allSpace g) ∧ allSpace last ∧
        l.reader = weave gaps (ts.map Token.Text) ++ last := by
  induction fuel with
  | zero => intro l ts lf h; simp [scan] at h
  | succ fuel ih =>
    intro l ts lf h herr
    obtain ⟨rs, t, p, e⟩ := l
    obtain ⟨ok, ws, body, trail, rest2, e2, f, heq, hrs, hws, htrail, -, htext, hclean⟩ :=
      Next_frame rs p e
    generalize advance p (ws ++ body ++ trail) = p2 at heq
    simp only [scan, heq t] at h
    cases ok with
    | false =>
      simp only [Option.some.injEq, Prod.mk.injEq] at h
      obtain ⟨rfl, rfl⟩ := h
      simp only at herr
      exact ⟨[], rs, rfl, by simp, (hclean rfl).mp herr, by simp [weave]⟩
    | true =>
      simp only at h
      cases hscan : scan fuel ⟨rest2, f t, p2, e2⟩ with
      | none => simp [hscan] at h
      | some r =>
        obtain ⟨ts2, lf2⟩ := r
        simp only [hscan, Option.some.injEq, Prod.mk.injEq] at h
        obtain ⟨rfl, rfl⟩ := h
        obtain ⟨gaps, last, hlen, hg, hlast, hread⟩ := ih _ ts2 lf2 hscan herr
        simp only at hread
        obtain ⟨⟨k, hk⟩, -⟩ := htext rfl
        obtain ⟨gaps2, last2, hlen2, hg2, hlast2, hjoin⟩ :=
          weave_absorb trail htrail gaps (ts2.map Token.Text) last hlen hg hlast
        refine ⟨ws :: gaps2, last2, by simp [hlen2], ?_, hlast2, ?_⟩
        · intro x hx
          rcases List.mem_cons.mp hx with rfl | hx
          · exact hws
          · exact hg2 x hx
        · simp only [List.map_cons, weave, hk t]
          rw [hrs, hread, List.append_assoc, List.append_assoc, List.append_assoc, hjoin]
          simp

/-- C2: when the loop of `main` on a fresh lexer ends with `Next` false and a
nil `Err()`, the input is `g1 ++ t1 ++ g2 ++ t2 ++ ... ++ tn ++ last`, where
the `ti` are the texts of the tokens in order and the `gi` and `last` are
whitespace runs (possibly empty); and the token texts joined with one space
between tokens that whitespace separated are the input up to single-space
normalization of whitespace runs. -/
theorem C2_round_trip (inp : List Nat) (fuel : Nat) (ts : List Token) (lf : Lexer)
    (h : scan fuel (NewLexer inp) = some (ts, lf)) (herr : Err lf = none) :
    ∃ (gaps : List (List Nat)) (last : List Nat),
      gaps.length = ts.length ∧ (∀ g ∈ gaps, allSpace g) ∧ allSpace last ∧
      inp = weave gaps (ts.map Token.Text) ++ last ∧
      normalizeSpace (rejoin gaps (ts.map Token.Text)) = normalizeSpace inp := by
  obtain ⟨gaps, last, hlen, hg, hlast, hread⟩ := scan_weave fuel (NewLexer inp) ts lf h herr
  have hinp : inp = weave gaps (ts.map Token.Text) ++ last := hread
  refine ⟨gaps, last, by simpa using hlen, hg, hlast, hinp, ?_⟩
  rw [normalizeSpace_rejoin gaps (ts.map Token.Text) last hlen hg hlast, ← hinp]

/-! ## Clean end of input (C3) -/

/-- C3: a call of `Next`, on a fresh lexer or on any later state, returns
false with a nil `Err()` if and only if the unread input at the time of the
call is whitespace only (the empty input included); so a false result in the
middle of a token has an error. -/
theorem C3_clean_end_iff_whitespace (l : Lexer) :
    ((Next l).1 = false ∧ Err (Next l).2 = none) ↔ allSpace l.reader := by
  obtain ⟨rs, t, p, e⟩ := l
  obtain ⟨ok, ws, body, trail, rest2, e2, f, heq, hrs, -, -, -, htext, hclean⟩ :=
    Next_frame rs p e
  rw [heq t]
  simp only [Err]
  cases ok with
  | false => simpa using hclean rfl
  | true =>
    obtain ⟨-, c, tl, hbody, hc⟩ := htext rfl
    subst hbody
    constructor
    · intro h; simp at h
    · intro h
      have := h c (by rw [hrs]; simp)
      simp [hc] at this

/-- C2, at the input ` x:= 1 //c ` newline ` y`: the scan ends cleanly with
five tokens, and the theorem gives the gaps between them. -/
theorem C2_round_trip_witness :
    (scan 20 (NewLexer (runes " x:= 1 //c \n y"))
        = some ([⟨IdentifierToken, runes "x", ⟨0, 1⟩⟩, ⟨InitToken, runes ":=", ⟨0, 2⟩⟩,
            ⟨NumberToken, runes "1", ⟨0, 5⟩⟩, ⟨LineCommentToken, runes "//c ", ⟨0, 7⟩⟩,
            ⟨IdentifierToken, runes "y", ⟨1, 1⟩⟩],
          ⟨[], ⟨IdentifierToken, runes "y", ⟨1, 2⟩⟩, ⟨1, 2⟩, none⟩) ∧
      Err (⟨[], ⟨IdentifierToken, runes "y", ⟨1, 2⟩⟩, ⟨1, 2⟩, none⟩ : Lexer) = none) ∧
    ∃ (gaps : List (List Nat)) (last : List Nat),
      gaps.length = 5 ∧ (∀ g ∈ gaps, allSpace g) ∧ allSpace last ∧
      runes " x:= 1 //c \n y"
        = weave gaps [runes "x", runes ":=", runes "1", runes "//c ", runes "y"] ++ last ∧
      normalizeSpace (rejoin gaps [runes "x", runes ":=", runes "1", runes "//c ", runes "y"])
        = normalizeSpace (runes " x:= 1 //c \n y") :=
  ⟨by decide,
    C2_round_trip (runes " x:= 1 //c \n y") 20
      [⟨IdentifierToken, runes "x", ⟨0, 1⟩⟩, ⟨InitToken, runes ":=", ⟨0, 2⟩⟩,
        ⟨NumberToken, runes "1", ⟨0, 5⟩⟩, ⟨LineCommentToken, runes "//c ", ⟨0, 7⟩⟩,
        ⟨IdentifierToken, runes "y", ⟨1, 1⟩⟩]
      ⟨[], ⟨IdentifierToken, runes "y", ⟨1, 2⟩⟩, ⟨1, 2⟩, none⟩ (by decide) (by decide)⟩

/-! ## Identifiers, keywords and numbers (C4, C5, C6) -/

theorem isLetter_range (c : Nat) (h : isLetter c = true) :
    (97 ≤ c ∧ c ≤ 122) ∨ (65 ≤ c ∧ c ≤ 90) := by
  simpa [isLetter] using h

theorem isDigit_range (c : Nat) (h : isDigit c = true) : 48 ≤ c ∧ c ≤ 57 := by
  simpa [isDigit] using h

theorem isSpace_false_of_range (c : Nat) (h1 : 33 ≤ c) (h2 : c ≤ 126) : isSpace c = false := by
  have h : c ≤ 255 := by omega
  simp only [isSpace, h, if_true, Bool.or_eq_false_iff, beq_eq_false_iff_ne, ne_eq]
  omega

theorem isLetter_not_space (c : Nat) (h : isLetter c = true) : isSpace c = false := by
  have := isLetter_range c h
  exact isSpace_false_of_range c (by omega) (by omega)

theorem isDigit_not_space (c : Nat) (h : isDigit c = true) : isSpace c = false := by
  have := isDigit_range c h
  exact isSpace_false_of_range c (by omega) (by omega)

theorem isDigit_not_newline (c : Nat) (h : isDigit c = true) : isNextLine c = false := by
  have := isDigit_range c h
  simp only [isNextLine, beq_eq_false_iff_ne, ne_eq]
  omega

theorem advance_no_newline (run : List Nat) :
    ∀ p : Position, (∀ x ∈ run, isNextLine x = false) →
      advance p run = ⟨p.Line, p.Column + run.length⟩ := by
  induction run with
  | nil => intro p _; rfl
  | cons a run ih =>
    intro p h
    have ha : isNextLine a = false := h a (by simp)
    rw [advance_cons, ih _ (fun x hx => h x (List.mem_cons_of_mem _ hx))]
    simp [step, ha]
    omega

/-- One call of `Next` on an input that starts with a letter `c`, goes on with
letters and digits `tl`, and then ends or has a code point that is neither. -/
theorem Next_identifier (c : Nat) (tl rest : List Nat) (t : Token) (p : Position)
    (e : Option LexError) (hc : isLetter c = true) (htl : ∀ x ∈ tl, isAlnum x = true)
    (hrest : ∀ x ∈ rest.head?, isAlnum x = false) :
    Next ⟨c :: tl ++ rest, t, p, e⟩
      = (true, ⟨rest, ⟨identifierKind (c :: tl), c :: tl, p⟩, advance p (c :: tl),
          if rest = [] then some LexError.eof else e⟩) := by
  have h := Next_token [] c (tl ++ rest) t p e allSpace_nil (isLetter_not_space c hc)
  simp only [List.nil_append, advance_nil] at h
  rw [List.cons_append, h, NextSwitch_letter c hc]
  cases rest with
  | nil =>
    rw [List.append_nil, nextIdentifierToken_eof tl [c] _ _ e htl]
    simp [advance_cons, advance]
  | cons d r =>
    have hd : isAlnum d = false := hrest d (by simp)
    rw [nextIdentifierToken_run tl d [c] r _ _ e htl hd]
    simp [advance_cons, advance]

/-- One call of `Next` on an input that starts with a digit `c`, goes on with
digits `tl`, and then ends or has a code point that is not a digit. -/
theorem Next_number (c : Nat) (tl rest : List Nat) (t : Token) (p : Position)
    (e : Option LexError) (hc : isDigit c = true) (htl : ∀ x ∈ tl, isDigit x = true)
    (hrest : ∀ x ∈ rest.head?, isDigit x = false) :
    Next ⟨c :: tl ++ rest, t, p, e⟩
      = (true, ⟨rest, ⟨NumberToken, c :: tl, p⟩, advance p (c :: tl),
          if rest = [] then some LexError.eof else e⟩) := by
  have h := Next_token [] c (tl ++ rest) t p e allSpace_nil (isDigit_not_space c hc)
  simp only [List.nil_append, advance_nil] at h
  rw [List.cons_append, h, NextSwitch_digit c hc]
  cases rest with
  | nil =>
    rw [List.append_nil, nextNumberToken_eof tl [c] _ _ e htl]
    simp [advance_cons, advance]
  | cons d r =>
    have hd : isDigit d = false := hrest d (by simp)
    rw [nextNumberToken_run tl d [c] r _ _ e htl hd]
    simp [advance_cons, advance]

theorem keywordTable_spellings : keywordTable.map Prod.fst = keywordSpellings := by decide

theorem identifierKind_not_keyword (run : List Nat) (h : run ∉ keywordSpellings) :
    identifierKind run = IdentifierToken := by
  have hk : keywords run = none :=
    lookup_none_of_not_mem run keywordTable (by rw [keywordTable_spellings]; exact h)
  simp [identifierKind, hk]

theorem identifierKind_keyword (kw : List Nat) (kind : TokenKind)
    (h : (kw, kind) ∈ keywordPairs) :
    identifierKind kw = kind ∧ kind ≠ IdentifierToken ∧
      (∃ c tl, kw = c :: tl ∧ isLetter c = true ∧ ∀ x ∈ tl, isAlnum x = true) := by
  simp only [keywordPairs, List.mem_cons, List.mem_singleton, List.not_mem_nil, or_false,
    Prod.mk.injEq] at h
  rcases h with h | h | h | h | h | h | h | h | h | h | h <;> obtain ⟨rfl, rfl⟩ := h <;>
    exact ⟨by decide, by decide, _, _, rfl, by decide, by decide⟩

/-- C4: on an input `run ++ rest`, where `run` is a non-empty sequence of ASCII
letters and digits that starts with a letter and is not a keyword spelling,
and `rest` is empty or starts with a code point outside letters and digits,
the first `Next` returns true with kind Identifier and text `run`, and leaves
`rest` unread. -/
theorem C4_identifier_maximal_munch (run rest : List Nat)
    (hfirst : ∃ c tl, run = c :: tl ∧ isLetter c = true)
    (hrun : ∀ x ∈ run, isLetter x = true ∨ isDigit x = true)
    (hkw : run ∉ keywordSpellings)
    (hrest : ∀ x ∈ rest.head?, isLetter x = false ∧ isDigit x = false) :
    (Next (NewLexer (run ++ rest))).1 = true ∧
      (Next (NewLexer (run ++ rest))).2.token.Kind = IdentifierToken ∧
      (Next (NewLexer (run ++ rest))).2.token.Text = run ∧
      (Next (NewLexer (run ++ rest))).2.reader = rest := by
  obtain ⟨c, tl, rfl, hc⟩ := hfirst
  have htl : ∀ x ∈ tl, isAlnum x = true := fun x hx => by
    simpa [isAlnum] using hrun x (List.mem_cons_of_mem _ hx)
  have hr : ∀ x ∈ rest.head?, isAlnum x = false := fun x hx => by
    simpa [isAlnum] using hrest x hx
  simp only [NewLexer, Next_identifier c tl rest _ _ _ hc htl hr,
    identifierKind_not_keyword _ hkw, and_self]

/-- C4, at the input `abc1+2`: the token is the identifier `abc1`. -/
theorem C4_identifier_maximal_munch_witness :
    (Next (NewLexer (runes "abc1" ++ runes "+2"))).1 = true ∧
      (Next (NewLexer (runes "abc1" ++ runes "+2"))).2.token.Kind = IdentifierToken ∧
      (Next (NewLexer (runes "abc1" ++ runes "+2"))).2.token.Text = runes "abc1" ∧
      (Next (NewLexer (runes "abc1" ++ runes "+2"))).2.reader = runes "+2" :=
  C4_identifier_maximal_munch (runes "abc1") (runes "+2") ⟨97, runes "bc1", by decide, by decide⟩
    (by decide) (by decide) (by decide)

/-- C5: for each of the eleven keyword spellings with its reserved kind, an
input that is the spelling followed by nothing or by a code point outside
letters and digits gives a token of that kind, which is not Identifier, with
the spelling as text; and a maximal run of letters and digits (starting with a
letter) that is none of the eleven spellings gives an Identifier with the run
as text. -/
theorem C5_keyword_reclassification :
    (∀ (kw : List Nat) (kind : TokenKind) (rest : List Nat),
      (kw, kind) ∈ keywordPairs →
      (∀ x ∈ rest.head?, isLetter x = false ∧ isDigit x = false) →
      (Next (NewLexer (kw ++ rest))).1 = true ∧
        (Next (NewLexer (kw ++ rest))).2.token.Kind = kind ∧
        kind ≠ IdentifierToken ∧
        (Next (NewLexer (kw ++ rest))).2.token.Text = kw) ∧
    (∀ (run rest : List Nat),
      (∃ c tl, run = c :: tl ∧ isLetter c = true) →
      (∀ x ∈ run, isLetter x = true ∨ isDigit x = true) →
      (∀ x ∈ rest.head?, isLetter x = false ∧ isDigit x = false) →
      run ∉ keywordSpellings →
      (Next (NewLexer (run ++ rest))).1 = true ∧
        (Next (NewLexer (run ++ rest))).2.token.Kind = IdentifierToken ∧
        (Next (NewLexer (run ++ rest))).2.token.Text = run) := by
  constructor
  · intro kw kind rest hkw hrest
    obtain ⟨hkind, hne, c, tl, rfl, hc, htl⟩ := identifierKind_keyword kw kind hkw
    have hr : ∀ x ∈ rest.head?, isAlnum x = false := fun x hx => by
      simpa [isAlnum] using hrest x hx
    simp only [NewLexer, Next_identifier c tl rest _ _ _ hc htl hr, hkind, and_self, true_and,
      and_true]
    exact hne
  · intro run rest hfirst hrun hrest hkw
    obtain ⟨c, tl, rfl, hc⟩ := hfirst
    have htl : ∀ x ∈ tl, isAlnum x = true := fun x hx => by
      simpa [isAlnum] using hrun x (List.mem_cons_of_mem _ hx)
    have hr : ∀ x ∈ rest.head?, isAlnum x = false := fun x hx => by
      simpa [isAlnum] using hrest x hx
    simp only [NewLexer, Next_identifier c tl rest _ _ _ hc htl hr,
      identifierKind_not_keyword _ hkw, and_self]

/-- C5, at the inputs `if(`, `If`, `iff` and `if1`: the first is the keyword
token, the other three are identifiers. -/
theorem C5_keyword_reclassification_witness :
    ((Next (NewLexer (runes "if" ++ runes "("))).1 = true ∧
      (Next (NewLexer (runes "if" ++ runes "("))).2.token.Kind = IfToken ∧
      IfToken ≠ IdentifierToken ∧
      (Next (NewLexer (runes "if" ++ runes "("))).2.token.Text = runes "if") ∧
    ((Next (NewLexer (runes "If" ++ []))).1 = true ∧
      (Next (NewLexer (runes "If" ++ []))).2.token.Kind = IdentifierToken ∧
      (Next (NewLexer (runes "If" ++ []))).2.token.Text = runes "If") ∧
    ((Next (NewLexer (runes "iff" ++ []))).1 = true ∧
      (Next (NewLexer (runes "iff" ++ []))).2.token.Kind = IdentifierToken ∧
      (Next (NewLexer (runes "iff" ++ []))).2.token.Text = runes "iff") ∧
    ((Next (NewLexer (runes "if1" ++ []))).1 = true ∧
      (Next (NewLexer (runes "if1" ++ []))).2.token.Kind = IdentifierToken ∧
      (Next (NewLexer (runes "if1" ++ []))).2.token.Text = runes "if1") :=
  ⟨C5_keyword_reclassification.1 (runes "if") IfToken (runes "(") (by decide) (by decide),
    C5_keyword_reclassification.2 (runes "If") [] ⟨73, runes "f", by decide, by decide⟩
      (by decide) (by decide) (by decide),
    C5_keyword_reclassification.2 (runes "iff") [] ⟨105, runes "ff", by decide, by decide⟩
      (by decide) (by decide) (by decide),
    C5_keyword_reclassification.2 (runes "if1") [] ⟨105, runes "f1", by decide, by decide⟩
      (by decide) (by decide) (by decide)⟩

/-- C6: on an input `digits ++ rest`, where `digits` is a non-empty sequence of
ASCII digits and `rest` is empty or starts with a code point that is not a
digit, the first `Next` returns true with the token Number, text `digits`,
position line 0 column 0, and leaves the lexer with `rest` unread at column
`digits.length`; the second `Next` then returns the same result, unread input,
position, error, token position, and on a true result the same token, as the
first `Next` of a fresh lexer on `rest` that starts at that column. -/
theorem C6_number_maximal_munch (digits rest : List Nat) (hne : digits ≠ [])
    (hdig : ∀ x ∈ digits, isDigit x = true)
    (hrest : ∀ x ∈ rest.head?, isDigit x = false) :
    (Next (NewLexer (digits ++ rest))).1 = true ∧
      (Next (NewLexer (digits ++ rest))).2.token = ⟨NumberToken, digits, ⟨0, 0⟩⟩ ∧
      (Next (NewLexer (digits ++ rest))).2.reader = rest ∧
      (Next (NewLexer (digits ++ rest))).2.position = ⟨0, digits.length⟩ ∧
      (Next (Next (NewLexer (digits ++ rest))).2).1
        = (Next (offsetLexer rest digits.length)).1 ∧
      (Next (Next (NewLexer (digits ++ rest))).2).2.reader
        = (Next (offsetLexer rest digits.length)).2.reader ∧
      (Next (Next (NewLexer (digits ++ rest))).2).2.position
        = (Next (offsetLexer rest digits.length)).2.position ∧
      Err (Next (Next (NewLexer (digits ++ rest))).2).2
        = Err (Next (offsetLexer rest digits.length)).2 ∧
      (Next (Next (NewLexer (digits ++ rest))).2).2.token.Position
        = (Next (offsetLexer rest digits.length)).2.token.Position ∧
      ((Next (Next (NewLexer (digits ++ rest))).2).1 = true →
        (Next (Next (NewLexer (digits ++ rest))).2).2.token
          = (Next (offsetLexer rest digits.length)).2.token) := by
  obtain ⟨c, tl, rfl⟩ : ∃ c tl, digits = c :: tl := by
    cases digits with
    | nil => exact absurd rfl hne
    | cons c tl => exact ⟨c, tl, rfl⟩
  have hc : isDigit c = true := hdig c (by simp)
  have htl : ∀ x ∈ tl, isDigit x = true := fun x hx => hdig x (List.mem_cons_of_mem _ hx)
  have hpos : advance ⟨0, 0⟩ (c :: tl) = ⟨0, (c :: tl).length⟩ := by
    rw [advance_no_newline (c :: tl) ⟨0, 0⟩ (fun x hx => isDigit_not_newline x (hdig x hx))]
    simp
  simp only [NewLexer, offsetLexer, Next_number c tl rest _ _ _ hc htl hrest, hpos, true_and]
  cases rest with
  | nil =>
    simp only [if_true, Next_eof [] _ _ _ allSpace_nil, Err, true_and]
    simp
  | cons d r =>
    obtain ⟨ok, ws, body, trail, rest2, e2, f, heq, -, -, -, hfpos, htext, -⟩ :=
      Next_frame (d :: r) ⟨0, (c :: tl).length⟩ none
    simp only [reduceCtorEq, if_false, heq, Err, hfpos, true_and]
    intro hok
    obtain ⟨⟨k, hk⟩, -⟩ := htext hok
    rw [hk, hk]

/-- C6, at the input `123abc`: Number `123` at column 0, then the second call
gives Identifier `abc` at column 3. -/
theorem C6_number_maximal_munch_witness :
    ((Next (Next (NewLexer (runes "123abc"))).2).2.token
        = ⟨IdentifierToken, runes "abc", ⟨0, 3⟩⟩) ∧
    ((Next (NewLexer (runes "123" ++ runes "abc"))).1 = true ∧
      (Next (NewLexer (runes "123" ++ runes "abc"))).2.token
        = ⟨NumberToken, runes "123", ⟨0, 0⟩⟩ ∧
      (Next (NewLexer (runes "123" ++ runes "abc"))).2.reader = runes "abc" ∧
      (Next (NewLexer (runes "123" ++ runes "abc"))).2.position = ⟨0, (runes "123").length⟩ ∧
      (Next (Next (NewLexer (runes "123" ++ runes "abc"))).2).1
        = (Next (offsetLexer (runes "abc") (runes "123").length)).1 ∧
      (Next (Next (NewLexer (runes "123" ++ runes "abc"))).2).2.reader
        = (Next (offsetLexer (runes "abc") (runes "123").length)).2.reader ∧
      (Next (Next (NewLexer (runes "123" ++ runes "abc"))).2).2.position
        = (Next (offsetLexer (runes "abc") (runes "123").length)).2.position ∧
      Err (Next (Next (NewLexer (runes "123" ++ runes "abc"))).2).2
        = Err (Next (offsetLexer (runes "abc") (runes "123").length)).2 ∧
      (Next (Next (NewLexer (runes "123" ++ runes "abc"))).2).2.token.Position
        = (Next (offsetLexer (runes "abc") (runes "123").length)).2.token.Position ∧
      ((Next (Next (NewLexer (runes "123" ++ runes "abc"))).2).1 = true →
        (Next (Next (NewLexer (runes "123" ++ runes "abc"))).2).2.token
          = (Next (offsetLexer (runes "abc") (runes "123").length)).2.token)) :=
  ⟨by decide,
    C6_number_maximal_munch (runes "123") (runes "abc") (by decide) (by decide) (by decide)⟩

/-! ## Operators (C7, C8) -/

theorem nextLineCommentToken_shape (b rs : List Nat) (t : Token) (p : Position)
    (e : Option LexError) :
    (nextLineCommentToken b ⟨rs, t, p, e⟩).1 = true ∧
      (nextLineCommentToken b ⟨rs, t, p, e⟩).2.token.Kind = LineCommentToken ∧
      ∃ body, (nextLineCommentToken b ⟨rs, t, p, e⟩).2.token.Text = b ++ body := by
  rcases span_split (fun x => !isNextLine x) rs with ⟨run, x, r2, h1, h2, rfl⟩ | h
  · have hx : x = 10 := by simpa [isNextLine] using h2
    subst hx
    have h1b : ∀ y ∈ run, isNextLine y = false := fun y hy => by simpa using h1 y hy
    rw [nextLineCommentToken_newline run b r2 t p e h1b]
    exact ⟨rfl, rfl, run, rfl⟩
  · have h1b : ∀ y ∈ rs, isNextLine y = false := fun y hy => by simpa using h y hy
    rw [nextLineCommentToken_eof rs b t p e h1b]
    exact ⟨rfl, rfl, rs, rfl⟩

/-- C7: on every state whose unread input is whitespace `ws`, then `c` among
`&`, `=`, `/`, then `rest`: if `rest` starts with `c` too, `Next` returns true
with BoolAnd and text `&&`, Equal and text `==`, or a LineComment whose text
starts with `//`; if `rest` is empty or starts with another code point, `Next`
returns true with And, Assign or Div and text `c`, all of `rest` is still
unread, and the position is the one after `ws` and `c` only. -/
theorem C7_operator_disambiguation (ws rest : List Nat) (c : Nat) (t : Token) (p : Position)
    (e : Option LexError) (hws : allSpace ws) (hc : c = 38 ∨ c = 61 ∨ c = 47) :
    (∀ rest2, rest = c :: rest2 →
      (Next ⟨ws ++ c :: rest, t, p, e⟩).1 = true ∧
      (Next ⟨ws ++ c :: rest, t, p, e⟩).2.token.Kind = twoCharKind c ∧
      (∃ body, (Next ⟨ws ++ c :: rest, t, p, e⟩).2.token.Text = c :: c :: body ∧
        (c ≠ 47 → body = [] ∧ (Next ⟨ws ++ c :: rest, t, p, e⟩).2.reader = rest2))) ∧
    ((∀ x ∈ rest.head?, x ≠ c) →
      Next ⟨ws ++ c :: rest, t, p, e⟩
        = (true, ⟨rest, ⟨oneCharKind c, [c], advance p ws⟩, advance p (ws ++ [c]),
            if rest = [] then some LexError.eof else e⟩)) := by
  have hsp : isSpace c = false := by
    rcases hc with rfl | rfl | rfl <;> decide
  rw [Next_token ws c rest t p e hws hsp]
  constructor
  · intro rest2 hrest
    subst hrest
    rcases hc with rfl | rfl | rfl
    · rw [NextSwitch_amp_amp]
      exact ⟨rfl, rfl, [], rfl, fun _ => ⟨rfl, rfl⟩⟩
    · rw [NextSwitch_eq_eq]
      exact ⟨rfl, rfl, [], rfl, fun _ => ⟨rfl, rfl⟩⟩
    · rw [NextSwitch_slash_comment]
      obtain ⟨h1, h2, body, h3⟩ := nextLineCommentToken_shape [47, 47] rest2
        { t with Position := advance p ws } (step (advance p (ws ++ [47])) 47) e
      exact ⟨h1, h2, body, h3, fun h => absurd rfl h⟩
  · intro hrest
    cases rest with
    | nil =>
      rcases hc with rfl | rfl | rfl
      · rw [NextSwitch_amp_eof]; rfl
      · rw [NextSwitch_eq_eof]; rfl
      · rw [NextSwitch_slash_eof]; rfl
    | cons d r =>
      have hd : d ≠ c := hrest d (by simp)
      rcases hc with rfl | rfl | rfl
      · rw [NextSwitch_amp_other d r _ _ e hd]; rfl
      · rw [NextSwitch_eq_other d r _ _ e hd]; rfl
      · rw [NextSwitch_slash_other d r _ _ e hd]; rfl

/-- C7, at the inputs ` &&x` and ` &x` on a fresh lexer. -/
theorem C7_operator_disambiguation_witness :
    (∀ rest2, runes "&x" = 38 :: rest2 →
      (Next ⟨runes " " ++ 38 :: runes "&x", ⟨InvalidToken, [], ⟨0, 0⟩⟩, ⟨0, 0⟩, none⟩).1 = true ∧
      (Next ⟨runes " " ++ 38 :: runes "&x", ⟨InvalidToken, [], ⟨0, 0⟩⟩, ⟨0, 0⟩, none⟩).2.token.Kind
        = twoCharKind 38 ∧
      (∃ body,
        (Next ⟨runes " " ++ 38 :: runes "&x", ⟨InvalidToken, [], ⟨0, 0⟩⟩, ⟨0, 0⟩,
          none⟩).2.token.Text = 38 :: 38 :: body ∧
        (38 ≠ 47 → body = [] ∧
          (Next ⟨runes " " ++ 38 :: runes "&x", ⟨InvalidToken, [], ⟨0, 0⟩⟩, ⟨0, 0⟩,
            none⟩).2.reader = rest2))) ∧
    Next ⟨runes " " ++ 38 :: runes "x", ⟨InvalidToken, [], ⟨0, 0⟩⟩, ⟨0, 0⟩, none⟩
      = (true, ⟨runes "x", ⟨oneCharKind 38, [38], advance ⟨0, 0⟩ (runes " ")⟩,
          advance ⟨0, 0⟩ (runes " " ++ [38]),
          if runes "x" = [] then some LexError.eof else none⟩) :=
  ⟨(C7_operator_disambiguation (runes " ") (runes "&x") 38 ⟨InvalidToken, [], ⟨0, 0⟩⟩ ⟨0, 0⟩
      none (by decide) (Or.inl rfl)).1,
    (C7_operator_disambiguation (runes " ") (runes "x") 38 ⟨InvalidToken, [], ⟨0, 0⟩⟩ ⟨0, 0⟩
      none (by decide) (Or.inl rfl)).2 (by decide)⟩

/-- C8: on every state whose unread input is whitespace `ws`, then `:`, then
`rest`: if `rest` starts with `=`, `Next` returns true with Init and text `:=`;
if it starts with `:`, true with Scope and text `::`; in every other case (the
input ends, or another code point follows) `Next` returns false and `Err()` is
not nil. -/
theorem C8_colon_operators (ws rest : List Nat) (t : Token) (p : Position)
    (e : Option LexError) (hws : allSpace ws) :
    (∀ r, rest = 61 :: r →
      Next ⟨ws ++ 58 :: rest, t, p, e⟩
        = (true, ⟨r, ⟨InitToken, [58, 61], advance p ws⟩, advance p (ws ++ [58, 61]), e⟩)) ∧
    (∀ r, rest = 58 :: r →
      Next ⟨ws ++ 58 :: rest, t, p, e⟩
        = (true, ⟨r, ⟨ScopeToken, [58, 58], advance p ws⟩, advance p (ws ++ [58, 58]), e⟩)) ∧
    ((∀ x ∈ rest.head?, x ≠ 61 ∧ x ≠ 58) →
      (Next ⟨ws ++ 58 :: rest, t, p, e⟩).1 = false ∧
      Err (Next ⟨ws ++ 58 :: rest, t, p, e⟩).2 ≠ none) := by
  rw [Next_token ws 58 rest t p e hws (by decide)]
  refine ⟨?_, ?_, ?_⟩
  · intro r hr
    subst hr
    rw [NextSwitch_colon_eq]
    simp [advance_append, advance_cons, advance_nil]
  · intro r hr
    subst hr
    rw [NextSwitch_colon_colon]
    simp [advance_append, advance_cons, advance_nil]
  · intro hrest
    cases rest with
    | nil =>
      rw [NextSwitch_colon_eof]
      simp [Err]
    | cons d r =>
      have hd := hrest d (by simp)
      rw [NextSwitch_colon_other d r _ _ e hd.1 hd.2]
      simp [Err]

/-- C8, at the inputs `:=1`, `::a`, `:` and `:a` on a fresh lexer. -/
theorem C8_colon_operators_witness :
    ((Next (NewLexer (runes ":=1"))).1 = true ∧
      (Next (NewLexer (runes ":=1"))).2.token = ⟨InitToken, runes ":=", ⟨0, 0⟩⟩) ∧
    ((Next (NewLexer (runes "::a"))).1 = true ∧
      (Next (NewLexer (runes "::a"))).2.token = ⟨ScopeToken, runes "::", ⟨0, 0⟩⟩) ∧
    ((Next ⟨[] ++ 58 :: [], ⟨InvalidToken, [], ⟨0, 0⟩⟩, ⟨0, 0⟩, none⟩).1 = false ∧
      Err (Next ⟨[] ++ 58 :: [], ⟨InvalidToken, [], ⟨0, 0⟩⟩, ⟨0, 0⟩, none⟩).2 ≠ none) ∧
    ((Next ⟨[] ++ 58 :: runes "a", ⟨InvalidToken, [], ⟨0, 0⟩⟩, ⟨0, 0⟩, none⟩).1 = false ∧
      Err (Next ⟨[] ++ 58 :: runes "a", ⟨InvalidToken, [], ⟨0, 0⟩⟩, ⟨0, 0⟩, none⟩).2 ≠ none) :=
  ⟨by decide, by decide,
    (C8_colon_operators [] [] ⟨InvalidToken, [], ⟨0, 0⟩⟩ ⟨0, 0⟩ none (by decide)).2.2
      (by decide),
    (C8_colon_operators [] (runes "a") ⟨InvalidToken, [], ⟨0, 0⟩⟩ ⟨0, 0⟩ none
      (by decide)).2.2 (by decide)⟩

/-! ## Character and string literals (C9, C10) -/

/-- C9: on every state whose unread input is whitespace `ws`, then a single
quote, then `rest`: `Next` returns true if and only if `rest` is `c`, quote
with `c` neither a quote nor a backslash, or backslash, any `c`, quote; the
token is then a Rune whose text is those 3 or 4 code points with both quotes;
and whenever `Next` returns false, `Err()` is not nil. -/
theorem C9_character_literal (ws rest : List Nat) (t : Token) (p : Position)
    (e : Option LexError) (hws : allSpace ws) :
    ((Next ⟨ws ++ 39 :: rest, t, p, e⟩).1 = true ↔
      ((∃ c r, c ≠ 39 ∧ c ≠ 92 ∧ rest = c :: 39 :: r) ∨ (∃ c r, rest = 92 :: c :: 39 :: r))) ∧
    (∀ c r, c ≠ 39 → c ≠ 92 → rest = c :: 39 :: r →
      (Next ⟨ws ++ 39 :: rest, t, p, e⟩).2.token.Kind = RuneToken ∧
      (Next ⟨ws ++ 39 :: rest, t, p, e⟩).2.token.Text = [39, c, 39]) ∧
    (∀ c r, rest = 92 :: c :: 39 :: r →
      (Next ⟨ws ++ 39 :: rest, t, p, e⟩).2.token.Kind = RuneToken ∧
      (Next ⟨ws ++ 39 :: rest, t, p, e⟩).2.token.Text = [39, 92, c, 39]) ∧
    ((Next ⟨ws ++ 39 :: rest, t, p, e⟩).1 = false →
      Err (Next ⟨ws ++ 39 :: rest, t, p, e⟩).2 ≠ none) := by
  rw [Next_token ws 39 rest t p e hws (by decide), NextSwitch_quote]
  refine ⟨?_, ?_, ?_, ?_⟩
  · rw [← runeBodyOk_iff]
    cases hok : runeBodyOk rest
    · obtain ⟨consumed, rest2, err, -, heq⟩ := nextRuneToken_fault rest [39] hok
      rw [heq]
    · rcases (runeBodyOk_iff rest).mp hok with ⟨c, r, h1, h2, rfl⟩ | ⟨c, r, rfl⟩
      · rw [nextRuneToken_plain c [39] r _ _ e h1 h2]
      · rw [nextRuneToken_escaped c [39] r _ _ e]
  · intro c r h1 h2 hr
    subst hr
    rw [nextRuneToken_plain c [39] r _ _ e h1 h2]
    exact ⟨rfl, rfl⟩
  · intro c r hr
    subst hr
    rw [nextRuneToken_escaped c [39] r _ _ e]
    exact ⟨rfl, rfl⟩
  · intro hfalse
    cases hok : runeBodyOk rest
    · obtain ⟨consumed, rest2, err, -, heq⟩ := nextRuneToken_fault rest [39] hok
      rw [heq]
      simp [Err]
    · rcases (runeBodyOk_iff rest).mp hok with ⟨c, r, h1, h2, rfl⟩ | ⟨c, r, rfl⟩
      · rw [nextRuneToken_plain c [39] r _ _ e h1 h2] at hfalse
        simp at hfalse
      · rw [nextRuneToken_escaped c [39] r _ _ e] at hfalse
        simp at hfalse

/-- C9, on a fresh lexer: the inputs quote, a, quote and quote, backslash, n,
quote are accepted with the input as text; quote, quote and quote, a, b, quote
return false with an error, as the theorem says of every false result. -/
theorem C9_character_literal_witness :
    ((Next (NewLexer (runes "'a'"))).1 = true ∧
      (Next (NewLexer (runes "'a'"))).2.token = ⟨RuneToken, runes "'a'", ⟨0, 0⟩⟩) ∧
    ((Next (NewLexer (runes "'\\n'"))).1 = true ∧
      (Next (NewLexer (runes "'\\n'"))).2.token = ⟨RuneToken, runes "'\\n'", ⟨0, 0⟩⟩) ∧
    (Next (NewLexer (runes "''"))).1 = false ∧
    (Next (NewLexer (runes "'ab'"))).1 = false ∧
    Err (Next ⟨[] ++ 39 :: runes "'", ⟨InvalidToken, [], ⟨0, 0⟩⟩, ⟨0, 0⟩, none⟩).2 ≠ none ∧
    Err (Next ⟨[] ++ 39 :: runes "ab'", ⟨InvalidToken, [], ⟨0, 0⟩⟩, ⟨0, 0⟩, none⟩).2 ≠ none :=
  ⟨by decide, by decide, by decide, by decide,
    (C9_character_literal [] (runes "'") ⟨InvalidToken, [], ⟨0, 0⟩⟩ ⟨0, 0⟩ none
      (by decide)).2.2.2 (by decide),
    (C9_character_literal [] (runes "ab'") ⟨InvalidToken, [], ⟨0, 0⟩⟩ ⟨0, 0⟩ none
      (by decide)).2.2.2 (by decide)⟩

/-- C10: on every state whose unread input is whitespace `ws`, then a double
quote, then `rest`, with `rest` read in units (one code point that is not a
backslash, or a backslash with the code point after it): if `rest` is units
other than a lone double quote, then a double quote, then `r`, `Next` returns
true with a String whose text runs from the opening quote through that
closing quote, and `r` is unread; if `rest` is such units up to the end of the
input, also with a lone backslash last, `Next` returns false and `Err()` is not
nil; and every `rest` has one of the two shapes. -/
theorem C10_string_literal (ws rest : List Nat) (t : Token) (p : Position)
    (e : Option LexError) (hws : allSpace ws) :
    (∀ (us : List (List Nat)) (r : List Nat), (∀ u ∈ us, isBodyUnit u = true) →
      rest = us.flatten ++ 34 :: r →
      Next ⟨ws ++ 34 :: rest, t, p, e⟩
        = (true, ⟨r, ⟨StringToken, 34 :: (us.flatten ++ [34]), advance p ws⟩,
            advance p (ws ++ 34 :: (us.flatten ++ [34])), e⟩)) ∧
    (∀ (us : List (List Nat)) (frag : List Nat), (∀ u ∈ us, isBodyUnit u = true) →
      (frag = [] ∨ frag = [92]) → rest = us.flatten ++ frag →
      (Next ⟨ws ++ 34 :: rest, t, p, e⟩).1 = false ∧
      Err (Next ⟨ws ++ 34 :: rest, t, p, e⟩).2 ≠ none) ∧
    ((∃ (us : List (List Nat)) (r : List Nat),
        (∀ u ∈ us, isBodyUnit u = true) ∧ rest = us.flatten ++ 34 :: r) ∨
      (∃ (us : List (List Nat)) (frag : List Nat),
        (∀ u ∈ us, isBodyUnit u = true) ∧ (frag = [] ∨ frag = [92]) ∧
        rest = us.flatten ++ frag)) := by
  rw [Next_token ws 34 rest t p e hws (by decide), NextSwitch_dquote]
  refine ⟨?_, ?_, string_units_exhaustive rest.length rest (le_refl _)⟩
  · intro us r hus hr
    subst hr
    rw [nextStringToken_closed us [34] r _ _ e hus]
    simp [advance_append, advance_cons, advance_nil]
  · intro us frag hus hfrag hr
    subst hr
    rw [nextStringToken_open us [34] frag _ _ e hus hfrag]
    simp [Err]

/-- C10, on a fresh lexer: the inputs `"hello"` and `"a\"b"` are accepted with
the input as text, and `"unterminated` returns false with an error. -/
theorem C10_string_literal_witness :
    Next ⟨[] ++ 34 :: runes "hello\"", ⟨InvalidToken, [], ⟨0, 0⟩⟩, ⟨0, 0⟩, none⟩
      = (true, ⟨[], ⟨StringToken,
            34 :: ([[104], [101], [108], [108], [111]].flatten ++ [34]), advance ⟨0, 0⟩ []⟩,
          advance ⟨0, 0⟩ ([] ++ 34 :: ([[104], [101], [108], [108], [111]].flatten ++ [34])),
          none⟩) ∧
    Next ⟨[] ++ 34 :: runes "a\\\"b\"", ⟨InvalidToken, [], ⟨0, 0⟩⟩, ⟨0, 0⟩, none⟩
      = (true, ⟨[], ⟨StringToken,
            34 :: ([[97], [92, 34], [98]].flatten ++ [34]), advance ⟨0, 0⟩ []⟩,
          advance ⟨0, 0⟩ ([] ++ 34 :: ([[97], [92, 34], [98]].flatten ++ [34])), none⟩) ∧
    ((Next ⟨[] ++ 34 :: runes "unterminated", ⟨InvalidToken, [], ⟨0, 0⟩⟩, ⟨0, 0⟩,
        none⟩).1 = false ∧
      Err (Next ⟨[] ++ 34 :: runes "unterminated", ⟨InvalidToken, [], ⟨0, 0⟩⟩, ⟨0, 0⟩,
        none⟩).2 ≠ none) ∧
    (Next (NewLexer (runes "\"hello\""))).2.token.Text = runes "\"hello\"" ∧
    (Next (NewLexer (runes "\"a\\\"b\""))).2.token.Text = runes "\"a\\\"b\"" :=
  ⟨(C10_string_literal [] (runes "hello\"") ⟨InvalidToken, [], ⟨0, 0⟩⟩ ⟨0, 0⟩ none
      (by decide)).1 [[104], [101], [108], [108], [111]] [] (by decide) (by decide),
    (C10_string_literal [] (runes "a\\\"b\"") ⟨InvalidToken, [], ⟨0, 0⟩⟩ ⟨0, 0⟩ none
      (by decide)).1 [[97], [92, 34], [98]] [] (by decide) (by decide),
    (C10_string_literal [] (runes "unterminated") ⟨InvalidToken, [], ⟨0, 0⟩⟩ ⟨0, 0⟩ none
      (by decide)).2.1 ((runes "unterminated").map (fun c => [c])) [] (by decide)
      (Or.inl rfl) (by decide),
    by decide, by decide⟩

/-! ## Line comments and unknown tokens (C11, C12) -/

/-- C11: on every state whose unread input is whitespace `ws`, then `//`, then
`body` without a newline, then `rest` that is empty or starts with a newline,
`Next` returns true with kind LineComment and text `//` followed by `body`;
the newline is not in the text, and an input that ends in the comment is not a
fault. -/
theorem C11_line_comment (ws body rest : List Nat) (t : Token) (p : Position)
    (e : Option LexError) (hws : allSpace ws) (hbody : ∀ x ∈ body, x ≠ 10)
    (hrest : ∀ x ∈ rest.head?, x = 10) :
    (Next ⟨ws ++ 47 :: 47 :: (body ++ rest), t, p, e⟩).1 = true ∧
      (Next ⟨ws ++ 47 :: 47 :: (body ++ rest), t, p, e⟩).2.token.Kind = LineCommentToken ∧
      (Next ⟨ws ++ 47 :: 47 :: (body ++ rest), t, p, e⟩).2.token.Text = 47 :: 47 :: body := by
  have hb : ∀ x ∈ body, isNextLine x = false := fun x hx => by
    simpa [isNextLine] using hbody x hx
  rw [Next_token ws 47 _ t p e hws (by decide), NextSwitch_slash_comment]
  cases rest with
  | nil =>
    rw [List.append_nil, nextLineCommentToken_eof body [47, 47] _ _ e hb]
    exact ⟨rfl, rfl, rfl⟩
  | cons d r =>
    have hd : d = 10 := hrest d (by simp)
    subst hd
    rw [nextLineCommentToken_newline body [47, 47] r _ _ e hb]
    exact ⟨rfl, rfl, rfl⟩

/-- C11, at the inputs `// hi` newline `x` and `// hi` on a fresh lexer. -/
theorem C11_line_comment_witness :
    ((Next ⟨[] ++ 47 :: 47 :: (runes " hi" ++ runes "\nx"), ⟨InvalidToken, [], ⟨0, 0⟩⟩,
        ⟨0, 0⟩, none⟩).1 = true ∧
      (Next ⟨[] ++ 47 :: 47 :: (runes " hi" ++ runes "\nx"), ⟨InvalidToken, [], ⟨0, 0⟩⟩,
        ⟨0, 0⟩, none⟩).2.token.Kind = LineCommentToken ∧
      (Next ⟨[] ++ 47 :: 47 :: (runes " hi" ++ runes "\nx"), ⟨InvalidToken, [], ⟨0, 0⟩⟩,
        ⟨0, 0⟩, none⟩).2.token.Text = 47 :: 47 :: runes " hi") ∧
    ((Next ⟨[] ++ 47 :: 47 :: (runes " hi" ++ []), ⟨InvalidToken, [], ⟨0, 0⟩⟩,
        ⟨0, 0⟩, none⟩).1 = true ∧
      (Next ⟨[] ++ 47 :: 47 :: (runes " hi" ++ []), ⟨InvalidToken, [], ⟨0, 0⟩⟩,
        ⟨0, 0⟩, none⟩).2.token.Kind = LineCommentToken ∧
      (Next ⟨[] ++ 47 :: 47 :: (runes " hi" ++ []), ⟨InvalidToken, [], ⟨0, 0⟩⟩,
        ⟨0, 0⟩, none⟩).2.token.Text = 47 :: 47 :: runes " hi") ∧
    (Next (NewLexer (runes "// hi\nx"))).2.token.Text = runes "// hi" :=
  ⟨C11_line_comment [] (runes " hi") (runes "\nx") ⟨InvalidToken, [], ⟨0, 0⟩⟩ ⟨0, 0⟩ none
      (by decide) (by decide) (by decide),
    C11_line_comment [] (runes " hi") [] ⟨InvalidToken, [], ⟨0, 0⟩⟩ ⟨0, 0⟩ none
      (by decide) (by decide) (by decide),
    by decide⟩

/-- C12: on every state whose unread input is whitespace `ws`, then a code
point `c` that is not whitespace, is none of the eighteen code points that
start a literal, a punctuation or an operator, is not an ASCII digit and not an
ASCII letter, `Next` returns false, `Err()` is the unknown-token error, and the
token has kind Invalid and the single code point `c` as text. -/
theorem C12_unknown_token (ws rest : List Nat) (c : Nat) (t : Token) (p : Position)
    (e : Option LexError) (hws : allSpace ws) (hsp : isSpace c = false)
    (hc : c ∉ [39, 34, 123, 125, 40, 41, 91, 93, 44, 43, 45, 42, 60, 62, 47, 58, 38, 61])
    (hd : isDigit c = false) (hl : isLetter c = false) :
    (Next ⟨ws ++ c :: rest, t, p, e⟩).1 = false ∧
      Err (Next ⟨ws ++ c :: rest, t, p, e⟩).2 = some (LexError.unknownToken c) ∧
      Err (Next ⟨ws ++ c :: rest, t, p, e⟩).2 ≠ none ∧
      (Next ⟨ws ++ c :: rest, t, p, e⟩).2.token.Kind = InvalidToken ∧
      (Next ⟨ws ++ c :: rest, t, p, e⟩).2.token.Text = [c] := by
  simp only [List.mem_cons, List.not_mem_nil, or_false, not_or] at hc
  obtain ⟨h39, h34, a1, a2, a3, a4, a5, a6, a7, a8, a9, a10, a11, a12, h47, h58, h38, h61⟩ := hc
  have hpk : punctKind c = none := by
    apply lookup_none_of_not_mem
    simp only [punctTable, List.map_cons, List.map_nil, List.mem_cons, List.not_mem_nil,
      or_false, not_or]
    exact ⟨a1, a2, a3, a4, a5, a6, a7, a8, a9, a10, a11, a12⟩
  rw [Next_token ws c rest t p e hws hsp,
    NextSwitch_unknown c _ h39 h34 hpk h47 h58 h38 h61 hd hl]
  simp [Err]

/-- C12, on a fresh lexer: a vertical bar, an underscore, the letter e with an
acute accent (U+00E9) and the Arabic-Indic digit three (U+0663) start no
token. -/
theorem C12_unknown_token_witness :
    ((Next ⟨[] ++ 124 :: runes "a", ⟨InvalidToken, [], ⟨0, 0⟩⟩, ⟨0, 0⟩, none⟩).1 = false ∧
      Err (Next ⟨[] ++ 124 :: runes "a", ⟨InvalidToken, [], ⟨0, 0⟩⟩, ⟨0, 0⟩, none⟩).2
        = some (LexError.unknownToken 124) ∧
      Err (Next ⟨[] ++ 124 :: runes "a", ⟨InvalidToken, [], ⟨0, 0⟩⟩, ⟨0, 0⟩, none⟩).2 ≠ none ∧
      (Next ⟨[] ++ 124 :: runes "a", ⟨InvalidToken, [], ⟨0, 0⟩⟩, ⟨0, 0⟩, none⟩).2.token.Kind
        = InvalidToken ∧
      (Next ⟨[] ++ 124 :: runes "a", ⟨InvalidToken, [], ⟨0, 0⟩⟩, ⟨0, 0⟩, none⟩).2.token.Text
        = [124]) ∧
    (Next (NewLexer (runes "_x"))).1 = false ∧
    (Next (NewLexer [0xE9])).1 = false ∧
    (Next (NewLexer [0x663])).1 = false :=
  ⟨C12_unknown_token [] (runes "a") 124 ⟨InvalidToken, [], ⟨0, 0⟩⟩ ⟨0, 0⟩ none (by decide)
      (by decide) (by decide) (by decide) (by decide),
    by decide, by decide, by decide⟩

/-! ## Pushback (C14) -/

/-- C14: on every lexer state with at least one unread code point,
`tryReadRune` succeeds, returns the first unread code point, and the closure
it returns takes the state after the read back to exactly the state before
the call: the same unread input, position, token and error. -/
theorem C14_pushback_exact (l : Lexer) (h : l.reader ≠ []) :
    (tryReadRune l).2.2.1 = true ∧
      some (tryReadRune l).1 = l.reader.head? ∧
      (tryReadRune l).2.2.2.reader = l.reader.tail ∧
      (tryReadRune l).2.1 (tryReadRune l).2.2.2 = l := by
  obtain ⟨rs, t, p, e⟩ := l
  cases rs with
  | nil => exact absurd rfl h
  | cons r rs =>
    rw [tryReadRune_cons]
    exact ⟨rfl, rfl, rfl, rfl⟩

/-- C14, at a state at line 0, column 2 whose first unread code point is a
newline: the read moves the position to line 1, column 0, and the pushback
restores the state. -/
theorem C14_pushback_exact_witness :
    (tryReadRune ⟨runes "\nb", ⟨IdentifierToken, runes "ab", ⟨0, 0⟩⟩, ⟨0, 2⟩,
        none⟩).2.2.2.position = ⟨1, 0⟩ ∧
    ((tryReadRune ⟨runes "\nb", ⟨IdentifierToken, runes "ab", ⟨0, 0⟩⟩, ⟨0, 2⟩,
        none⟩).2.2.1 = true ∧
      some (tryReadRune ⟨runes "\nb", ⟨IdentifierToken, runes "ab", ⟨0, 0⟩⟩, ⟨0, 2⟩,
        none⟩).1 = (runes "\nb").head? ∧
      (tryReadRune ⟨runes "\nb", ⟨IdentifierToken, runes "ab", ⟨0, 0⟩⟩, ⟨0, 2⟩,
        none⟩).2.2.2.reader = (runes "\nb").tail ∧
      (tryReadRune ⟨runes "\nb", ⟨IdentifierToken, runes "ab", ⟨0, 0⟩⟩, ⟨0, 2⟩, none⟩).2.1
          (tryReadRune ⟨runes "\nb", ⟨IdentifierToken, runes "ab", ⟨0, 0⟩⟩, ⟨0, 2⟩,
            none⟩).2.2.2
        = ⟨runes "\nb", ⟨IdentifierToken, runes "ab", ⟨0, 0⟩⟩, ⟨0, 2⟩, none⟩) :=
  ⟨by decide,
    C14_pushback_exact ⟨runes "\nb", ⟨IdentifierToken, runes "ab", ⟨0, 0⟩⟩, ⟨0, 2⟩, none⟩
      (by decide)⟩

/-! ## The token and the error of a successful call (C13, C18, C19) -/

theorem lookup_not_mem_of_none {α β : Type} [BEq α] [LawfulBEq α] (a : α) :
    ∀ xs : List (α × β), xs.lookup a = none → a ∉ xs.map Prod.fst := by
  intro xs
  induction xs with
  | nil => intro _; simp
  | cons x xs ih =>
    intro h
    obtain ⟨x1, x2⟩ := x
    by_cases hx : a = x1
    · subst hx
      simp [List.lookup_cons] at h
    · have hb : (a == x1) = false := by simpa using hx
      simp only [List.lookup_cons, hb] at h
      simp only [List.map_cons, List.mem_cons, not_or]
      exact ⟨hx, ih h⟩

theorem shapeOk_keyword (kw : List Nat) (kind : TokenKind) (h : (kw, kind) ∈ keywordTable) :
    shapeOk kind kw := by
  simp only [keywordTable, List.mem_cons, List.mem_singleton, List.not_mem_nil, or_false,
    Prod.mk.injEq] at h
  rcases h with h | h | h | h | h | h | h | h | h | h | h <;> obtain ⟨rfl, rfl⟩ := h <;>
    exact ⟨by decide, Or.inl rfl⟩

theorem shapeOk_identifier (c : Nat) (tl : List Nat) (hc : isLetter c = true)
    (htl : ∀ x ∈ tl, isAlnum x = true) : shapeOk (identifierKind (c :: tl)) (c :: tl) := by
  cases hk : keywords (c :: tl) with
  | none =>
    have hkind : identifierKind (c :: tl) = IdentifierToken := by simp [identifierKind, hk]
    have hnot : c :: tl ∉ keywordSpellings := by
      rw [← keywordTable_spellings]
      exact lookup_not_mem_of_none _ keywordTable hk
    rw [hkind]
    refine ⟨by simp, ⟨c, tl, rfl, hc, ?_⟩, hnot⟩
    intro x hx
    simpa [isAlnum] using htl x hx
  | some kind =>
    have hkind : identifierKind (c :: tl) = kind := by simp [identifierKind, hk]
    rw [hkind]
    exact shapeOk_keyword _ kind (lookup_mem _ kind keywordTable hk)

theorem shapeOk_punct (ck : Nat × TokenKind) (h : ck ∈ punctTable) :
    shapeOk ck.2 [ck.1] ∧ ∀ rest, endHit ck.1 rest = false := by
  simp only [punctTable, List.mem_cons, List.mem_singleton, List.not_mem_nil, or_false] at h
  rcases h with rfl | rfl | rfl | rfl | rfl | rfl | rfl | rfl | rfl | rfl | rfl | rfl <;>
    exact ⟨⟨by decide, Or.inr rfl⟩, fun rest => by simp [endHit, isLetter, isDigit]⟩

theorem endHit_letter (c : Nat) (rest : List Nat) (hc : isLetter c = true) :
    endHit c rest = rest.all isAlnum := by
  have hr := isLetter_range c hc
  have hd : isDigit c = false := by
    simp only [isDigit, Bool.and_eq_false_iff, decide_eq_false_iff_not]
    omega
  have h47 : (c == 47) = false := by simp only [beq_eq_false_iff_ne, ne_eq]; omega
  have h38 : (c == 38) = false := by simp only [beq_eq_false_iff_ne, ne_eq]; omega
  have h61 : (c == 61) = false := by simp only [beq_eq_false_iff_ne, ne_eq]; omega
  simp [endHit, hc, hd, h47, h38, h61]

theorem endHit_digit (c : Nat) (rest : List Nat) (hc : isDigit c = true) :
    endHit c rest = rest.all isDigit := by
  have hr := isDigit_range c hc
  have hl : isLetter c = false := by
    simp only [isLetter, Bool.or_eq_false_iff, Bool.and_eq_false_iff, decide_eq_false_iff_not]
    omega
  have h47 : (c == 47) = false := by simp only [beq_eq_false_iff_ne, ne_eq]; omega
  have h38 : (c == 38) = false := by simp only [beq_eq_false_iff_ne, ne_eq]; omega
  have h61 : (c == 61) = false := by simp only [beq_eq_false_iff_ne, ne_eq]; omega
  simp [endHit, hc, hl, h47, h38, h61]

theorem all_false_of_split (P : Nat → Bool) (run : List Nat) (x : Nat) (r2 : List Nat)
    (hx : P x = false) : (run ++ x :: r2).all P = false := by
  simp only [List.all_eq_false]
  exact ⟨x, by simp, by simp [hx]⟩

theorem all_true_of_forall (P : Nat → Bool) (rs : List Nat) (h : ∀ x ∈ rs, P x = true) :
    rs.all P = true := by
  simpa using h

/-- What a true result of the switch of `Next` leaves: a token whose text has
the shape of its kind, and the error `io.EOF` with nothing unread when the
scan of the token ran into the end of the input, the error of before
otherwise. -/
theorem NextSwitch_outcome (c : Nat) (rest : List Nat) (t : Token) (p : Position)
    (e : Option LexError) (h : (NextSwitch c ⟨rest, t, p, e⟩).1 = true) :
    shapeOk (NextSwitch c ⟨rest, t, p, e⟩).2.token.Kind
        (NextSwitch c ⟨rest, t, p, e⟩).2.token.Text ∧
      (NextSwitch c ⟨rest, t, p, e⟩).2.err
        = (if endHit c rest = true then some LexError.eof else e) ∧
      (endHit c rest = true → (NextSwitch c ⟨rest, t, p, e⟩).2.reader = []) := by
  by_cases h39 : c = 39
  · subst h39
    have hend : endHit 39 rest = false := by simp [endHit, isLetter, isDigit]
    rw [NextSwitch_quote] at h ⊢
    cases hok : runeBodyOk rest
    · obtain ⟨consumed, rest2, err, -, heq⟩ := nextRuneToken_fault rest [39] hok
      rw [heq] at h
      simp at h
    · rcases (runeBodyOk_iff rest).mp hok with ⟨d, r2, h1, h2, rfl⟩ | ⟨d, r2, rfl⟩
      · rw [nextRuneToken_plain d [39] r2 t p e h1 h2, hend]
        exact ⟨⟨by simp, by simp⟩, by simp, by simp⟩
      · rw [nextRuneToken_escaped d [39] r2 t p e, hend]
        exact ⟨⟨by simp, by simp⟩, by simp, by simp⟩
  by_cases h34 : c = 34
  · subst h34
    have hend : endHit 34 rest = false := by simp [endHit, isLetter, isDigit]
    rw [NextSwitch_dquote] at h ⊢
    rcases string_units_exhaustive rest.length rest (le_refl _) with
      ⟨us, r2, hus, rfl⟩ | ⟨us, frag, hus, hfrag, rfl⟩
    · rw [nextStringToken_closed us [34] r2 t p e hus, hend]
      have hlast : (34 :: (us.flatten ++ [34])).getLast? = some 34 := by
        rw [← List.cons_append]
        exact List.getLast?_concat _
      exact ⟨⟨by simp, by simp, by simp, hlast⟩, by simp, by simp⟩
    · rw [nextStringToken_open us [34] frag t p e hus hfrag] at h
      simp at h
  cases hpk : punctKind c with
  | some k =>
    obtain ⟨hshape, hend⟩ := shapeOk_punct (c, k) (lookup_mem c k punctTable hpk)
    rw [NextSwitch_punct c k hpk, hend rest]
    exact ⟨hshape, by simp, by simp⟩
  | none =>
  by_cases h47 : c = 47
  · subst h47
    rcases rest with _ | ⟨d, rest⟩
    · rw [NextSwitch_slash_eof]
      exact ⟨⟨by simp, Or.inr rfl⟩, by simp [endHit], by simp⟩
    · by_cases hd : d = 47
      · subst hd
        rw [NextSwitch_slash_comment]
        rcases span_split (fun x => !isNextLine x) rest with ⟨run, x, r2, h1, h2, rfl⟩ | hall
        · have hx : x = 10 := by simpa [isNextLine] using h2
          subst hx
          have h1b : ∀ y ∈ run, isNextLine y = false := fun y hy => by simpa using h1 y hy
          have hend : endHit 47 (47 :: (run ++ 10 :: r2)) = false := by
            simp [endHit, isLetter, isDigit]
          rw [nextLineCommentToken_newline run [47, 47] r2 t (step p 47) e h1b, hend]
          refine ⟨⟨by simp, run, rfl, ?_⟩, by simp, by simp⟩
          intro hmem
          have := h1b 10 hmem
          simp [isNextLine] at this
        · have h1b : ∀ y ∈ rest, isNextLine y = false := fun y hy => by simpa using hall y hy
          have hno : ∀ y ∈ rest, ¬ y = 10 := fun y hy => by
            simpa [isNextLine] using h1b y hy
          have hend : endHit 47 (47 :: rest) = true := by
            simp [endHit, isLetter, isDigit]
            exact hno
          rw [nextLineCommentToken_eof rest [47, 47] t (step p 47) e h1b, hend]
          refine ⟨⟨by simp, rest, rfl, ?_⟩, by simp, by simp⟩
          intro hmem
          exact hno 10 hmem rfl
      · have hend : endHit 47 (d :: rest) = false := by
          simp [endHit, isLetter, isDigit, hd]
        rw [NextSwitch_slash_other d rest t p e hd, hend]
        exact ⟨⟨by simp, Or.inr rfl⟩, by simp, by simp⟩
  by_cases h58 : c = 58
  · subst h58
    have hend : endHit 58 rest = false := by simp [endHit, isLetter, isDigit]
    rcases rest with _ | ⟨d, rest⟩
    · rw [NextSwitch_colon_eof] at h
      simp at h
    · by_cases hd : d = 61
      · subst hd
        rw [NextSwitch_colon_eq, hend]
        exact ⟨⟨by simp, Or.inr rfl⟩, by simp, by simp⟩
      · by_cases hd2 : d = 58
        · subst hd2
          rw [NextSwitch_colon_colon, hend]
          exact ⟨⟨by simp, Or.inr rfl⟩, by simp, by simp⟩
        · rw [NextSwitch_colon_other d rest t p e hd hd2] at h
          simp at h
  by_cases h38 : c = 38
  · subst h38
    rcases rest with _ | ⟨d, rest⟩
    · rw [NextSwitch_amp_eof]
      exact ⟨⟨by simp, Or.inr rfl⟩, by simp [endHit], by simp⟩
    · have hend : endHit 38 (d :: rest) = false := by simp [endHit, isLetter, isDigit]
      by_cases hd : d = 38
      · subst hd
        rw [NextSwitch_amp_amp, hend]
        exact ⟨⟨by simp, Or.inr rfl⟩, by simp, by simp⟩
      · rw [NextSwitch_amp_other d rest t p e hd, hend]
        exact ⟨⟨by simp, Or.inr rfl⟩, by simp, by simp⟩
  by_cases h61 : c = 61
  · subst h61
    rcases rest with _ | ⟨d, rest⟩
    · rw [NextSwitch_eq_eof]
      exact ⟨⟨by simp, Or.inr rfl⟩, by simp [endHit], by simp⟩
    · have hend : endHit 61 (d :: rest) = false := by simp [endHit, isLetter, isDigit]
      by_cases hd : d = 61
      · subst hd
        rw [NextSwitch_eq_eq, hend]
        exact ⟨⟨by simp, Or.inr rfl⟩, by simp, by simp⟩
      · rw [NextSwitch_eq_other d rest t p e hd, hend]
        exact ⟨⟨by simp, Or.inr rfl⟩, by simp, by simp⟩
  cases hdig : isDigit c with
  | true =>
    rw [NextSwitch_digit c hdig, endHit_digit c rest hdig]
    rcases span_split isDigit rest with ⟨run, x, r2, h1, h2, rfl⟩ | hall
    · rw [nextNumberToken_run run x [c] r2 t p e h1 h2, all_false_of_split isDigit run x r2 h2]
      refine ⟨⟨by simp, ?_⟩, by simp, by simp⟩
      intro y hy
      rcases List.mem_cons.mp hy with rfl | hy
      · exact hdig
      · exact h1 y hy
    · rw [nextNumberToken_eof rest [c] t p e hall, all_true_of_forall isDigit rest hall]
      refine ⟨⟨by simp, ?_⟩, by simp, by simp⟩
      intro y hy
      rcases List.mem_cons.mp hy with rfl | hy
      · exact hdig
      · exact hall y hy
  | false =>
  cases hlet : isLetter c with
  | true =>
    rw [NextSwitch_letter c hlet, endHit_letter c rest hlet]
    rcases span_split isAlnum rest with ⟨run, x, r2, h1, h2, rfl⟩ | hall
    · rw [nextIdentifierToken_run run x [c] r2 t p e h1 h2,
        all_false_of_split isAlnum run x r2 h2]
      exact ⟨shapeOk_identifier c run hlet h1, by simp, by simp⟩
    · rw [nextIdentifierToken_eof rest [c] t p e hall, all_true_of_forall isAlnum rest hall]
      exact ⟨shapeOk_identifier c rest hlet hall, by simp, by simp⟩
  | false =>
    rw [NextSwitch_unknown c ⟨rest, t, p, e⟩ h39 h34 hpk h47 h58 h38 h61 hdig hlet] at h
    simp at h

theorem dropWhile_space (ws : List Nat) (c : Nat) (rest : List Nat) (hws : allSpace ws)
    (hc : isSpace c = false) : (ws ++ c :: rest).dropWhile isSpace = c :: rest := by
  induction ws with
  | nil => simp [List.dropWhile, hc]
  | cons w ws ih =>
    have hw : isSpace w = true := hws w (by simp)
    have hws2 : allSpace ws := fun x hx => hws x (List.mem_cons_of_mem _ hx)
    simp [List.dropWhile, hw, ih hws2]

theorem hitsEnd_token (ws : List Nat) (c : Nat) (rest : List Nat) (hws : allSpace ws)
    (hc : isSpace c = false) : hitsEnd (ws ++ c :: rest) = endHit c rest := by
  simp only [hitsEnd, dropWhile_space ws c rest hws hc]

/-- What a true result of `Next` leaves, on every state: a token whose text has
the shape of its kind, and the error `io.EOF` with nothing unread when the
scan of the token ran into the end of the input, the error of before
otherwise. -/
theorem Next_outcome (rs : List Nat) (t : Token) (p : Position) (e : Option LexError)
    (h : (Next ⟨rs, t, p, e⟩).1 = true) :
    shapeOk (Next ⟨rs, t, p, e⟩).2.token.Kind (Next ⟨rs, t, p, e⟩).2.token.Text ∧
      (Next ⟨rs, t, p, e⟩).2.err = (if hitsEnd rs = true then some LexError.eof else e) ∧
      (hitsEnd rs = true → (Next ⟨rs, t, p, e⟩).2.reader = []) := by
  rcases space_split rs with ⟨ws, c, rest, hws, hc, rfl⟩ | hall
  · rw [Next_token ws c rest t p e hws hc] at h ⊢
    rw [hitsEnd_token ws c rest hws hc]
    exact NextSwitch_outcome c rest _ _ e h
  · rw [Next_eof rs t p e hall] at h
    simp at h

/-- C13: on every lexer state, a call of `Next` that returns true leaves a
token whose kind is neither BoolOr nor Invalid; and on every state whose
unread input is whitespace and then a vertical bar, `Next` returns false with
the unknown-token error. -/
theorem C13_boolor_never_produced :
    (∀ l : Lexer, (Next l).1 = true →
      (Next l).2.token.Kind ≠ BoolOrToken ∧ (Next l).2.token.Kind ≠ InvalidToken) ∧
    (∀ (ws rest : List Nat) (t : Token) (p : Position) (e : Option LexError), allSpace ws →
      (Next ⟨ws ++ 124 :: rest, t, p, e⟩).1 = false ∧
      Err (Next ⟨ws ++ 124 :: rest, t, p, e⟩).2 = some (LexError.unknownToken 124)) := by
  constructor
  · intro l h
    obtain ⟨rs, t, p, e⟩ := l
    obtain ⟨hshape, -, -⟩ := Next_outcome rs t p e h
    constructor
    · intro hk
      rw [hk] at hshape
      exact hshape.2
    · intro hk
      rw [hk] at hshape
      exact hshape.2
  · intro ws rest t p e hws
    rw [Next_token ws 124 rest t p e hws (by decide),
      NextSwitch_unknown 124 _ (by decide) (by decide) (by decide) (by decide) (by decide)
        (by decide) (by decide) (by decide) (by decide)]
    simp [Err]

/-- C13, on a fresh lexer: `&&` gives BoolAnd, which is not BoolOr, and two
vertical bars give no token but the unknown-token error. -/
theorem C13_boolor_never_produced_witness :
    (Next (NewLexer (runes "&&"))).2.token.Kind = BoolAndToken ∧
    ((Next (NewLexer (runes "&&"))).2.token.Kind ≠ BoolOrToken ∧
      (Next (NewLexer (runes "&&"))).2.token.Kind ≠ InvalidToken) ∧
    ((Next ⟨[] ++ 124 :: runes "|", ⟨InvalidToken, [], ⟨0, 0⟩⟩, ⟨0, 0⟩, none⟩).1 = false ∧
      Err (Next ⟨[] ++ 124 :: runes "|", ⟨InvalidToken, [], ⟨0, 0⟩⟩, ⟨0, 0⟩, none⟩).2
        = some (LexError.unknownToken 124)) :=
  ⟨by decide, C13_boolor_never_produced.1 (NewLexer (runes "&&")) (by decide),
    C13_boolor_never_produced.2 [] (runes "|") ⟨InvalidToken, [], ⟨0, 0⟩⟩ ⟨0, 0⟩ none
      (by decide)⟩

/-- C18: on every lexer state, a call of `Next` that returns true leaves a
token whose text is not empty and has the shape of its kind (`shapeOk`):
digits for Number, a letter then letters and digits and no keyword spelling
for Identifier, the spelling for a keyword kind, the symbol for a punctuation
or operator kind, double quotes at both ends of at least 2 code points for
String, single quotes at both ends of 3 or 4 code points for Rune, `//` and no
newline for LineComment. -/
theorem C18_kind_lexeme_agree (l : Lexer) (h : (Next l).1 = true) :
    (Next l).2.token.Text ≠ [] ∧ shapeOk (Next l).2.token.Kind (Next l).2.token.Text := by
  obtain ⟨rs, t, p, e⟩ := l
  obtain ⟨hshape, -, -⟩ := Next_outcome rs t p e h
  exact ⟨hshape.1, hshape⟩

/-- C18, at the input ` :=x` on a fresh lexer: the token Init has the text
`:=`. -/
theorem C18_kind_lexeme_agree_witness :
    (Next (NewLexer (runes " :=x"))).2.token = ⟨InitToken, runes ":=", ⟨0, 1⟩⟩ ∧
    ((Next (NewLexer (runes " :=x"))).2.token.Text ≠ [] ∧
      shapeOk (Next (NewLexer (runes " :=x"))).2.token.Kind
        (Next (NewLexer (runes " :=x"))).2.token.Text) :=
  ⟨by decide, C18_kind_lexeme_agree (NewLexer (runes " :=x")) (by decide)⟩

/-- In a scan from a state without an error in which every call so far
returned true, there is no error before the next call. -/
theorem nextCalls_err_none (l0 : Lexer) (h0 : l0.err = none) (k : Nat) :
    (∀ j, j ≤ k → (Next (nextCalls j l0)).1 = true) → (nextCalls k l0).err = none := by
  induction k with
  | zero => intro _; exact h0
  | succ k ih =>
    intro hall
    have hprev : (nextCalls k l0).err = none := ih (fun j hj => hall j (by omega))
    have hk : (Next (nextCalls k l0)).1 = true := hall k (by omega)
    have hk1 : (Next (Next (nextCalls k l0)).2).1 = true := hall (k + 1) (le_refl _)
    show (Next (nextCalls k l0)).2.err = none
    generalize nextCalls k l0 = l at hprev hk hk1
    obtain ⟨rs, t, p, e⟩ := l
    simp only at hprev
    subst hprev
    obtain ⟨-, herr, hread⟩ := Next_outcome rs t p none hk
    cases hhit : hitsEnd rs with
    | false => simpa [hhit] using herr
    | true =>
      have hr := hread hhit
      generalize Next ⟨rs, t, p, none⟩ = res at hr hk1
      obtain ⟨ok, ⟨rs2, t2, p2, e2⟩⟩ := res
      simp only at hr
      subst hr
      rw [Next_eof [] t2 p2 e2 allSpace_nil] at hk1
      simp at hk1

/-- C19: in a scan from a fresh lexer in which every earlier call returned
true, when the call of `Next` returns true, `Err()` is `io.EOF` if the scan of
the token ran into the end of the input (a run of letters and digits or a
number that ends the input, a line comment without a newline, or `/`, `&`,
`=` as the last code point) and nil otherwise; and in the first case the
following call returns false and leaves `Err()` nil. -/
theorem C19_err_after_success (inp : List Nat) (k : Nat)
    (hprev : ∀ j, j < k → (Next (nextCalls j (NewLexer inp))).1 = true)
    (h : (Next (nextCalls k (NewLexer inp))).1 = true) :
    Err (Next (nextCalls k (NewLexer inp))).2
        = (if hitsEnd (nextCalls k (NewLexer inp)).reader = true then some LexError.eof
          else none) ∧
      (hitsEnd (nextCalls k (NewLexer inp)).reader = true →
        Err (Next (nextCalls k (NewLexer inp))).2 ≠ none ∧
        (Next (Next (nextCalls k (NewLexer inp))).2).1 = false ∧
        Err (Next (Next (nextCalls k (NewLexer inp))).2).2 = none) := by
  have herr0 := nextCalls_err_none (NewLexer inp) rfl k (fun j hj => by
    rcases Nat.lt_or_eq_of_le hj with hlt | heq
    · exact hprev j hlt
    · rw [heq]; exact h)
  generalize nextCalls k (NewLexer inp) = l at h herr0
  obtain ⟨rs, t, p, e⟩ := l
  simp only at herr0
  subst herr0
  obtain ⟨-, herr, hread⟩ := Next_outcome rs t p none h
  simp only [Err]
  refine ⟨herr, ?_⟩
  intro hhit
  have hr := hread hhit
  generalize Next ⟨rs, t, p, none⟩ = res at herr hr
  obtain ⟨ok, ⟨rs2, t2, p2, e2⟩⟩ := res
  simp only at herr hr
  subst hr
  rw [Next_eof [] t2 p2 e2 allSpace_nil]
  simp [herr, hhit]

/-- C19, on the input `a b` from a fresh lexer: after the token `a` the error
is nil; after the token `b`, which ends the input, the error is `io.EOF`, and
the call after it returns false with a nil error. -/
theorem C19_err_after_success_witness :
    (Err (Next (nextCalls 0 (NewLexer (runes "a b")))).2 = none ∧
      Err (Next (nextCalls 1 (NewLexer (runes "a b")))).2 = some LexError.eof) ∧
    (Err (Next (nextCalls 1 (NewLexer (runes "a b")))).2
        = (if hitsEnd (nextCalls 1 (NewLexer (runes "a b"))).reader = true
          then some LexError.eof else none) ∧
      (hitsEnd (nextCalls 1 (NewLexer (runes "a b"))).reader = true →
        Err (Next (nextCalls 1 (NewLexer (runes "a b")))).2 ≠ none ∧
        (Next (Next (nextCalls 1 (NewLexer (runes "a b")))).2).1 = false ∧
        Err (Next (Next (nextCalls 1 (NewLexer (runes "a b")))).2).2 = none)) :=
  ⟨by decide, C19_err_after_success (runes "a b") 1 (by decide) (by decide)⟩

/-! ## Monotone positions (C15) -/

theorem lexLe_refl (a : Position) : lexLe a a := Or.inr ⟨rfl, le_refl _⟩

theorem lexLe_trans {a b c : Position} (h1 : lexLe a b) (h2 : lexLe b c) : lexLe a c := by
  unfold lexLe at *
  omega

theorem lexLt_of_lt_of_le {a b c : Position} (h1 : lexLt a b) (h2 : lexLe b c) :
    lexLt a c := by
  unfold lexLt lexLe at *
  omega

theorem lexLt_of_le_of_lt {a b c : Position} (h1 : lexLe a b) (h2 : lexLt b c) :
    lexLt a c := by
  unfold lexLt lexLe at *
  omega

theorem lexLe_of_lt {a b : Position} (h : lexLt a b) : lexLe a b := by
  unfold lexLt lexLe at *
  omega

theorem lexLe_line {a b : Position} (h : lexLe a b) : a.Line ≤ b.Line := by
  unfold lexLe at h
  omega

theorem step_lexLt (p : Position) (c : Nat) : lexLt p (step p c) := by
  unfold step lexLt
  split
  · exact Or.inl (Nat.lt_succ_self _)
  · exact Or.inr ⟨rfl, Nat.lt_succ_self _⟩

theorem advance_lexLe (cs : List Nat) : ∀ p : Position, lexLe p (advance p cs) := by
  induction cs with
  | nil => intro p; exact lexLe_refl p
  | cons c cs ih =>
    intro p
    rw [advance_cons]
    exact lexLe_trans (lexLe_of_lt (step_lexLt p c)) (ih _)

theorem advance_lexLt (c : Nat) (cs : List Nat) (p : Position) :
    lexLt p (advance p (c :: cs)) := by
  rw [advance_cons]
  exact lexLt_of_lt_of_le (step_lexLt p c) (advance_lexLe cs _)

/-- One call of `Next` does not move the position back, starts its token at or
after the position of before, and after a true result the position of after
is past the start of the token. -/
theorem Next_positions (l : Lexer) :
    lexLe l.position (Next l).2.position ∧ lexLe l.position (Next l).2.token.Position ∧
      ((Next l).1 = true → lexLt (Next l).2.token.Position (Next l).2.position) := by
  obtain ⟨rs, t, p, e⟩ := l
  obtain ⟨ok, ws, body, trail, rest2, e2, f, heq, -, -, -, hpos, htext, -⟩ := Next_frame rs p e
  rw [heq t]
  refine ⟨advance_lexLe _ p, ?_, ?_⟩
  · simp only [hpos t]
    exact advance_lexLe ws p
  · intro hok
    obtain ⟨-, c, tl, hbody, -⟩ := htext hok
    subst hbody
    simp only [hpos t, advance_append]
    exact lexLt_of_lt_of_le (advance_lexLt c tl _) (advance_lexLe trail _)

theorem nextCalls_position_mono (l : Lexer) (k : Nat) :
    ∀ d, lexLe (nextCalls k l).position (nextCalls (k + d) l).position := by
  intro d
  induction d with
  | zero => exact lexLe_refl _
  | succ d ih =>
    exact lexLe_trans ih (Next_positions (nextCalls (k + d) l)).1

theorem columnOf_eq_zero (pre : List Nat) (h : columnOf pre = 0) :
    pre = [] ∨ pre.getLast? = some 10 := by
  induction pre using List.reverseRecOn with
  | nil => exact Or.inl rfl
  | append_singleton pre c _ =>
    right
    by_cases hc : c = 10
    · subst hc
      exact List.getLast?_concat _
    · simp [columnOf, hc] at h

/-- C15: in a scan from a fresh lexer, for every call of `Next`: `Position()`
after the call is at or after `Position()` before it in the order on (line,
column), and its line is not less; the position of the token of a true call
is strictly before the position of the token of every later true call; and
if the column is 0 after the call, then nothing of the input has been read or
the last code point read is a newline. -/
theorem C15_position_monotone (inp : List Nat) (k : Nat) :
    lexLe (nextCalls k (NewLexer inp)).position
        (Next (nextCalls k (NewLexer inp))).2.position ∧
      (nextCalls k (NewLexer inp)).position.Line
        ≤ (Next (nextCalls k (NewLexer inp))).2.position.Line ∧
      (∀ j, k < j → (Next (nextCalls k (NewLexer inp))).1 = true →
        (Next (nextCalls j (NewLexer inp))).1 = true →
        lexLt (Next (nextCalls k (NewLexer inp))).2.token.Position
          (Next (nextCalls j (NewLexer inp))).2.token.Position) ∧
      ((Next (nextCalls k (NewLexer inp))).2.position.Column = 0 →
        ∃ pre, inp = pre ++ (Next (nextCalls k (NewLexer inp))).2.reader ∧
          (pre = [] ∨ pre.getLast? = some 10)) := by
  refine ⟨(Next_positions _).1, lexLe_line (Next_positions _).1, ?_, ?_⟩
  · intro j hkj hk hj
    obtain ⟨d, rfl⟩ : ∃ d, j = (k + 1) + d := ⟨j - (k + 1), by omega⟩
    have h1 := (Next_positions (nextCalls k (NewLexer inp))).2.2 hk
    have h2 : lexLe (nextCalls (k + 1) (NewLexer inp)).position
        (nextCalls (k + 1 + d) (NewLexer inp)).position :=
      nextCalls_position_mono (NewLexer inp) (k + 1) d
    have h3 := (Next_positions (nextCalls (k + 1 + d) (NewLexer inp))).2.1
    exact lexLt_of_lt_of_le h1 (lexLe_trans h2 h3)
  · intro hcol
    obtain ⟨pre, h1, h2⟩ := nextCalls_invariant inp (k + 1)
    refine ⟨pre, h1, ?_⟩
    have h3 : (nextCalls (k + 1) (NewLexer inp)).position.Column = 0 := hcol
    rw [h2, advance_origin] at h3
    exact columnOf_eq_zero pre h3

/-- C15, on the input `ab` newline `cd` from a fresh lexer: the positions after
the calls are line 0 column 2, then line 1 column 2, then the same again, and
the two tokens are at line 0 column 0 and line 1 column 0. -/
theorem C15_position_monotone_witness :
    ((Next (nextCalls 0 (NewLexer (runes "ab\ncd")))).2.position = ⟨0, 2⟩ ∧
      (Next (nextCalls 1 (NewLexer (runes "ab\ncd")))).2.position = ⟨1, 2⟩ ∧
      (Next (nextCalls 2 (NewLexer (runes "ab\ncd")))).2.position = ⟨1, 2⟩) ∧
    lexLt (Next (nextCalls 0 (NewLexer (runes "ab\ncd")))).2.token.Position
      (Next (nextCalls 1 (NewLexer (runes "ab\ncd")))).2.token.Position :=
  ⟨by decide,
    (C15_position_monotone (runes "ab\ncd") 0).2.2.1 1 (by decide) (by decide) (by decide)⟩

/-! ## The newline after a line comment (C16) -/

/-- C16 fails at the input `//a` newline `b` on a fresh lexer: `Next` returns
the LineComment `//a` of line 0, column 0, and `Position()` is then line 1,
column 0, not the comment's own line with column 0 + 3; the newline has been
read, only `b` is unread. -/
theorem C16_comment_newline_counterexample :
    (Next (NewLexer (runes "//a\nb"))).1 = true ∧
      (Next (NewLexer (runes "//a\nb"))).2.token
        = ⟨LineCommentToken, runes "//a", ⟨0, 0⟩⟩ ∧
      (Next (NewLexer (runes "//a\nb"))).2.position = ⟨1, 0⟩ ∧
      (Next (NewLexer (runes "//a\nb"))).2.position
        ≠ ⟨(Next (NewLexer (runes "//a\nb"))).2.token.Position.Line,
            (Next (NewLexer (runes "//a\nb"))).2.token.Position.Column
              + (Next (NewLexer (runes "//a\nb"))).2.token.Text.length⟩ ∧
      (Next (NewLexer (runes "//a\nb"))).2.reader = runes "b" := by
  decide

/-- C16 as amended: on every state whose unread input is whitespace `ws`, then
`//`, then `body` without a newline, then a newline, then `rest`, `Next`
returns the LineComment `//` followed by `body` and has read the newline too:
`rest` is what is unread, and `Position()` is column 0 of the line after the
line of the comment. -/
theorem C16_comment_newline_read (ws body rest : List Nat) (t : Token) (p : Position)
    (e : Option LexError) (hws : allSpace ws) (hbody : ∀ x ∈ body, x ≠ 10) :
    Next ⟨ws ++ 47 :: 47 :: (body ++ 10 :: rest), t, p, e⟩
      = (true, ⟨rest, ⟨LineCommentToken, 47 :: 47 :: body, advance p ws⟩,
          ⟨(advance p ws).Line + 1, 0⟩, e⟩) := by
  have hb : ∀ x ∈ body, isNextLine x = false := fun x hx => by
    simpa [isNextLine] using hbody x hx
  have hb2 : ∀ x ∈ 47 :: 47 :: body, isNextLine x = false := by
    intro x hx
    rcases List.mem_cons.mp hx with rfl | hx
    · decide
    · rcases List.mem_cons.mp hx with rfl | hx
      · decide
      · exact hb x hx
  have hpos : advance (advance p ws) (47 :: 47 :: body ++ [10])
      = ⟨(advance p ws).Line + 1, 0⟩ := by
    rw [advance_snoc, advance_no_newline _ _ hb2]
    simp [step, isNextLine]
  rw [Next_token ws 47 _ t p e hws (by decide), NextSwitch_slash_comment,
    nextLineCommentToken_newline body [47, 47] rest _ _ e hb, ← hpos]
  simp [advance_append, advance_cons, advance_nil]

/-- C16 as amended, at the input ` //a` newline `b` on a fresh lexer. -/
theorem C16_comment_newline_read_witness :
    Next ⟨runes " " ++ 47 :: 47 :: (runes "a" ++ 10 :: runes "b"), ⟨InvalidToken, [], ⟨0, 0⟩⟩,
        ⟨0, 0⟩, none⟩
      = (true, ⟨runes "b", ⟨LineCommentToken, 47 :: 47 :: runes "a",
            advance ⟨0, 0⟩ (runes " ")⟩,
          ⟨(advance ⟨0, 0⟩ (runes " ")).Line + 1, 0⟩, none⟩) :=
  C16_comment_newline_read (runes " ") (runes "a") (runes "b") ⟨InvalidToken, [], ⟨0, 0⟩⟩
    ⟨0, 0⟩ none (by decide) (by decide)

/-! ## Progress and termination (C17) -/

/-- The loop of `main` ends within as many true calls as there are unread code
points, so any fuel above that number gives its result. -/
theorem scan_terminates (fuel : Nat) :
    ∀ l : Lexer, l.reader.length < fuel →
      ∃ ts lf, scan fuel l = some (ts, lf) ∧ ts.length ≤ l.reader.length := by
  induction fuel with
  | zero => intro l h; omega
  | succ fuel ih =>
    intro l hl
    obtain ⟨rs, t, p, e⟩ := l
    obtain ⟨ok, ws, body, trail, rest2, e2, f, heq, hrs, -, -, -, htext, -⟩ :=
      Next_frame rs p e
    generalize advance p (ws ++ body ++ trail) = p2 at heq
    simp only [scan, heq t]
    cases ok with
    | false => exact ⟨[], _, rfl, Nat.zero_le _⟩
    | true =>
      obtain ⟨-, c, tl, hbody, -⟩ := htext rfl
      have hlen : rest2.length < rs.length := by
        rw [hrs, hbody]
        simp
        omega
      simp only at hl
      obtain ⟨ts, lf, hscan, hts⟩ := ih ⟨rest2, f t, p2, e2⟩ (by simp only; omega)
      refine ⟨f t :: ts, lf, ?_, ?_⟩
      · simp only [hscan]
      · simp only [List.length_cons] at hts ⊢
        omega

/-- C17: on every lexer state, a call of `Next` that returns true has read at
least one code point net of pushback: the unread input after the call is a
proper suffix of the unread input before it. Hence on an input of `n` code
points the loop of `main` ends (fuel `n + 1` is enough) with at most `n`
tokens. -/
theorem C17_progress_termination :
    (∀ l : Lexer, (Next l).1 = true →
      (∃ consumed, consumed ≠ [] ∧ l.reader = consumed ++ (Next l).2.reader) ∧
      (Next l).2.reader.length < l.reader.length) ∧
    (∀ inp : List Nat, ∃ ts lf,
      scan (inp.length + 1) (NewLexer inp) = some (ts, lf) ∧ ts.length ≤ inp.length) := by
  constructor
  · intro l h
    obtain ⟨rs, t, p, e⟩ := l
    obtain ⟨ok, ws, body, trail, rest2, e2, f, heq, hrs, -, -, -, htext, -⟩ :=
      Next_frame rs p e
    rw [heq t] at h ⊢
    simp only at h
    subst h
    obtain ⟨-, c, tl, hbody, -⟩ := htext rfl
    subst hbody
    constructor
    · exact ⟨ws ++ c :: tl ++ trail, by simp, by simp [hrs]⟩
    · simp only [hrs, List.length_append, List.length_cons]
      omega
  · intro inp
    exact scan_terminates (inp.length + 1) (NewLexer inp) (Nat.lt_succ_self _)

/-- C17, at the input `a+b` on a fresh lexer: the first call leaves `+b`
unread, and the loop ends with three tokens. -/
theorem C17_progress_termination_witness :
    ((∃ consumed, consumed ≠ [] ∧
        (NewLexer (runes "a+b")).reader = consumed ++ (Next (NewLexer (runes "a+b"))).2.reader) ∧
      (Next (NewLexer (runes "a+b"))).2.reader.length < (NewLexer (runes "a+b")).reader.length) ∧
    (scan 4 (NewLexer (runes "a+b"))).map (fun r => r.1.map Token.Text)
      = some [runes "a", runes "+", runes "b"] :=
  ⟨C17_progress_termination.1 (NewLexer (runes "a+b")) (by decide), by decide⟩

/-! ## After the end of the input (C20) -/

/-- The state that a clean end of input leaves is a fixed point of `Next`. -/
theorem Next_at_end (k : TokenKind) (x : List Nat) (q : Position) :
    Next ⟨[], ⟨k, x, q⟩, q, none⟩ = (false, ⟨[], ⟨k, x, q⟩, q, none⟩) := by
  rw [Next_eof [] _ _ _ allSpace_nil]
  rfl

theorem nextCalls_at_end (k : TokenKind) (x : List Nat) (q : Position) (n : Nat) :
    nextCalls n ⟨[], ⟨k, x, q⟩, q, none⟩ = ⟨[], ⟨k, x, q⟩, q, none⟩ := by
  induction n with
  | zero => rfl
  | succ n ih =>
    show (Next (nextCalls n ⟨[], ⟨k, x, q⟩, q, none⟩)).2 = _
    rw [ih, Next_at_end]

/-- C20: once a call of `Next` has returned false with a nil `Err()`, every
later call also returns false with a nil `Err()`, reads nothing (nothing is
unread), leaves `Position()` as it is, and leaves the kind and the text of
`Token()` as they are; the position of `Token()` is set to the position of the
lexer, which it already was. -/
theorem C20_end_absorbing (l : Lexer) (h1 : (Next l).1 = false)
    (h2 : Err (Next l).2 = none) (n : Nat) :
    (Next (nextCalls n (Next l).2)).1 = false ∧
      Err (Next (nextCalls n (Next l).2)).2 = none ∧
      (nextCalls n (Next l).2).reader = [] ∧
      (Next (nextCalls n (Next l).2)).2.reader = [] ∧
      (Next (nextCalls n (Next l).2)).2.position = (Next l).2.position ∧
      (Next (nextCalls n (Next l).2)).2.token.Kind = (Next l).2.token.Kind ∧
      (Next (nextCalls n (Next l).2)).2.token.Text = (Next l).2.token.Text ∧
      (Next (nextCalls n (Next l).2)).2.token.Position
        = (Next (nextCalls n (Next l).2)).2.position := by
  obtain ⟨rs, t, p, e⟩ := l
  obtain ⟨ok, ws, body, trail, rest2, e2, f, heq, -, -, -, -, -, hclean⟩ := Next_frame rs p e
  have hok : ok = false := by rw [heq t] at h1; exact h1
  have he2 : e2 = none := by rw [heq t] at h2; exact h2
  have hall : allSpace rs := (hclean hok).mp he2
  rw [Next_eof rs t p e hall]
  simp only [nextCalls_at_end, Next_at_end, Err, and_self]

/-- C20, at the input `a` and two spaces on a fresh lexer: the second call is
the clean end of the input, and the three calls after it change nothing. -/
theorem C20_end_absorbing_witness :
    (Next (nextCalls 1 (NewLexer (runes "a  ")))).2
      = ⟨[], ⟨IdentifierToken, runes "a", ⟨0, 3⟩⟩, ⟨0, 3⟩, none⟩ ∧
    ((Next (nextCalls 3 (Next (nextCalls 1 (NewLexer (runes "a  ")))).2)).1 = false ∧
      Err (Next (nextCalls 3 (Next (nextCalls 1 (NewLexer (runes "a  ")))).2)).2 = none ∧
      (nextCalls 3 (Next (nextCalls 1 (NewLexer (runes "a  ")))).2).reader = [] ∧
      (Next (nextCalls 3 (Next (nextCalls 1 (NewLexer (runes "a  ")))).2)).2.reader = [] ∧
      (Next (nextCalls 3 (Next (nextCalls 1 (NewLexer (runes "a  ")))).2)).2.position
        = (Next (nextCalls 1 (NewLexer (runes "a  ")))).2.position ∧
      (Next (nextCalls 3 (Next (nextCalls 1 (NewLexer (runes "a  ")))).2)).2.token.Kind
        = (Next (nextCalls 1 (NewLexer (runes "a  ")))).2.token.Kind ∧
      (Next (nextCalls 3 (Next (nextCalls 1 (NewLexer (runes "a  ")))).2)).2.token.Text
        = (Next (nextCalls 1 (NewLexer (runes "a  ")))).2.token.Text ∧
      (Next (nextCalls 3 (Next (nextCalls 1 (NewLexer (runes "a  ")))).2)).2.token.Position
        = (Next (nextCalls 3 (Next (nextCalls 1 (NewLexer (runes "a  ")))).2)).2.position) :=
  ⟨by decide,
    C20_end_absorbing (nextCalls 1 (NewLexer (runes "a  "))) (by decide) (by decide) 3⟩

end Bust
